import Mathlib

/-
Verification of the Urban-Navigation-Engine core (grafo_pesado.py, gps.py,
callejero.py) against its natural-language specification.

Shallow embedding conventions:
* Node keys are natural numbers (the source uses opaque hashable keys; the
  application uses OSM integer ids).  Hence the `isinstance(..., hashable)`
  guards of the source never fire and are omitted.
* Python floats are modelled as rationals (ℚ); `sys.float_info.max` (the
  source's INFTY sentinel) is the exact rational value of that double.
* Python dicts are modelled as insertion-ordered association lists with
  Python's update semantics (replace in place, append new keys at the end).
* Fallible code returns `Except PyErr`; the constructors name the Python
  exception class raised at the corresponding source location.
* Loops whose termination is not structural take a fuel argument; fuel
  exhaustion is reported as the distinguished artefact error `.fuelOut`,
  which is proved (or computed) never to occur in the runs appearing in
  the theorems below.
-/

deriving instance DecidableEq for Except

namespace UrbanNav

/-- Python exception classes that the embedded code can raise, plus the
`fuelOut` artefact of the embedding (never produced in any run appearing
in a theorem). -/
inductive PyErr where
  | keyError
  | typeError
  | valueError
  | zeroDivisionError
  | fuelOut
deriving DecidableEq

/-- `INFTY = sys.float_info.max` from grafo_pesado.py: the largest double,
`2^1024 - 2^971` (see `INFTY_eq`), written as a decimal literal so that
concrete runs reduce inside the kernel.  Note that this is a finite
sentinel, not a true infinity. -/
def INFTY : ℚ := 179769313486231570814527423731704356798070567525844996598917476803157260780028538760589558632766878171540458953514382464234321326889464182768467546703537516986049910576551282076245490090389328944075868508455133942304583236903222948165808559332123348274797826204144723168738177180919299881250404026184124858368

set_option maxRecDepth 4000 in
theorem INFTY_eq : INFTY = 2 ^ 1024 - 2 ^ 971 := by
  norm_num [INFTY]

/-- Python `str.strip()`: remove leading and trailing whitespace (modelled
on the character list so that concrete runs reduce inside the kernel;
`String.trim` does not). -/
def pstrip (s : String) : String :=
  String.mk (((s.data.dropWhile Char.isWhitespace).reverse.dropWhile
    Char.isWhitespace).reverse)

/-- Attributes carried by one directed edge of the street graph
(the attribute contract of spec §3/§6): optional physical length in
metres, optional street name, optional road-class tag (`highway`), and
optional maximum speed.  `maxspeed` is kept as the string the source
obtains via `str(...)`; `length` is kept numeric, as produced by the
ingestion collaborator. -/
structure EdgeData where
  length : Option ℚ
  name : Option String
  highway : Option String
  maxspeed : Option String
deriving DecidableEq

/-- A weighted street graph: node list (insertion order of `G.nodes`),
planar coordinates for every node (`G.nodes[n]["x"]`, `G.nodes[n]["y"]`;
per the data-model invariant every node has coordinates), and the edge
list (enumeration order of `G.edges`) with attributes. -/
structure WGraph where
  nodes : List ℕ
  coordX : ℕ → ℚ
  coordY : ℕ → ℚ
  edges : List (ℕ × ℕ × EdgeData)

/-- `G[u][v]` : attribute dict of edge (u, v), `none` when (u, v) is not an
edge (Python raises `KeyError` at the call sites, handled there). -/
def edgeData? (G : WGraph) (u v : ℕ) : Option EdgeData :=
  (G.edges.find? (fun e => e.1 = u && e.2.1 = v)).map (fun e => e.2.2)

/-- Out-neighbours of `v` (`G.neighbors(v)` on the directed graph the
application builds), in edge enumeration order. -/
def succs (G : WGraph) (v : ℕ) : List ℕ :=
  G.edges.filterMap (fun e => if e.1 = v then some e.2.1 else none)

/-- Neighbours of `v` in the undirected reading of the edge list
(`G.neighbors(v)` for an `nx.Graph`, the declared signature of `prim` and
`kruskal`). -/
def neighborsU (G : WGraph) (v : ℕ) : List ℕ :=
  G.edges.filterMap (fun e => if e.1 = v then some e.2.1 else none) ++
    G.edges.filterMap (fun e => if e.2.1 = v then some e.1 else none)

section Dict

variable {α : Type}

/-- Dict lookup `d[k]` / `d.get(k)` on an insertion-ordered assoc list. -/
def dlookup : List (ℕ × α) → ℕ → Option α
  | [], _ => none
  | (k, a) :: t, k' => if k = k' then some a else dlookup t k'

/-- Dict update `d[k] = a`: replace in place if the key exists, else append
at the end (Python dict semantics). -/
def dset : List (ℕ × α) → ℕ → α → List (ℕ × α)
  | [], k, a => [(k, a)]
  | (k', b) :: t, k, a => if k' = k then (k, a) :: t else (k', b) :: dset t k a

/-- `del d[k]` (first occurrence; a well-formed dict has unique keys). -/
def ddel : List (ℕ × α) → ℕ → List (ℕ × α)
  | [], _ => []
  | (k', b) :: t, k => if k' = k then t else (k', b) :: ddel t k

/-- The key list of a dict. -/
def dkeys (d : List (ℕ × α)) : List ℕ := d.map (fun e => e.1)

/-- `{v: c for v in l}` — initialise a dict with constant value `c`. -/
def dinit (c : α) (l : List ℕ) : List (ℕ × α) :=
  l.foldl (fun acc v => dset acc v c) []

theorem dlookup_dset (d : List (ℕ × α)) (k : ℕ) (a : α) (k' : ℕ) :
    dlookup (dset d k a) k' = if k = k' then some a else dlookup d k' := by
  induction d with
  | nil => simp [dset, dlookup]
  | cons hd t ih =>
    obtain ⟨kh, ah⟩ := hd
    by_cases hk : kh = k
    · subst hk
      by_cases hk' : kh = k' <;> simp [dset, dlookup, hk']
    · by_cases hk' : kh = k'
      · subst hk'
        have hne : ¬k = kh := fun h => hk h.symm
        simp [dset, dlookup, hk, hne]
      · simp [dset, dlookup, hk, hk', ih]

theorem dlookup_dinit (c : α) (l : List ℕ) (k : ℕ) :
    dlookup (dinit c l) k = if k ∈ l then some c else none := by
  have main : ∀ (l : List ℕ) (d : List (ℕ × α)),
      dlookup (l.foldl (fun acc v => dset acc v c) d) k =
        if k ∈ l then some c else dlookup d k := by
    intro l
    induction l with
    | nil => intro d; simp
    | cons h t ih =>
      intro d
      by_cases hk : k ∈ t
      · simp [ih, hk]
      · by_cases hh : h = k
        · simp [ih, hk, dlookup_dset, hh]
        · have hh2 : ¬k = h := fun e => hh e.symm
          simp [ih, hk, dlookup_dset, hh, hh2]
  simpa [dinit] using main l []

end Dict

/-- Value of a decimal digit character. -/
def digVal (c : Char) : Option ℕ :=
  if c.isDigit then some (c.toNat - 48) else none

/-- Read a (possibly empty) string of decimal digits as a natural number;
fails on any non-digit. -/
def digitsVal (l : List Char) : Option ℕ :=
  l.foldl
    (fun acc c =>
      match acc, digVal c with
      | some n, some d => some (n * 10 + d)
      | _, _ => none)
    (some 0)

/-- Model of Python `float(s)` on plain signed decimal literals
(`"30"`, `"-4.5"`, `".5"`, `"12."`); anything else — in particular the
empty string or non-numeric text — fails (Python raises `ValueError`).
Exotic accepted forms of the real `float` (exponents, `inf`, `nan`,
underscores) are modelled as failures; none occurs in the road data
contract nor in the static speed table. -/
def parseFloat? (s : String) : Option ℚ :=
  let cs := s.data
  let signed : ℚ × List Char :=
    match cs with
    | '-' :: t => (-1, t)
    | '+' :: t => (1, t)
    | _ => (1, cs)
  let sign := signed.1
  let rest := signed.2
  let ip := rest.takeWhile (fun c => c ≠ '.')
  let rest2 := rest.dropWhile (fun c => c ≠ '.')
  match rest2 with
  | [] =>
    if ip.isEmpty then none
    else (digitsVal ip).map (fun n => sign * n)
  | _ :: fp =>
    if ip.isEmpty && fp.isEmpty then none
    else
      match digitsVal ip, digitsVal fp with
      | some n, some f => some (sign * ((n : ℚ) + (f : ℚ) / 10 ^ fp.length))
      | _, _ => none

/-- The static road-class → speed table `MAX_SPEEDS` of callejero.py
(values are the strings of the source literal). -/
def MAX_SPEEDS : List (String × String) :=
  [("living_street", "20"), ("residential", "30"), ("primary_link", "40"),
   ("unclassified", "40"), ("secondary_link", "40"), ("trunk_link", "40"),
   ("secondary", "50"), ("tertiary", "50"), ("primary", "50"), ("trunk", "50"),
   ("tertiary_link", "50"), ("busway", "50"), ("motorway_link", "70"),
   ("motorway", "100")]

/-- `d.get(k)` on a string-keyed dict literal. -/
def slookup : List (String × String) → String → Option String
  | [], _ => none
  | (k, v) :: t, k' => if k = k' then some v else slookup t k'

/-- `mas_corto` (weight policy `shortest`): the edge's `length` attribute.
`KeyError` when (u, v) is not an edge or when `length` is absent
(`G[u][v]["length"]`). -/
def mas_corto (G : WGraph) (u v : ℕ) : Except PyErr ℚ :=
  match edgeData? G u v with
  | none => .error .keyError
  | some datos =>
    match datos.length with
    | none => .error .keyError
    | some l => .ok l

/-- First phase of `_velocidad_kmh` (its `maxspeed` block, named here so
theorems can refer to it): the speed taken from the edge's own `maxspeed`
attribute, `none` when the attribute is absent, blank after stripping, or
not parseable as a float (the source's `except ValueError` resets it to
`None`). -/
def maxspeedParse (datos : EdgeData) : Option ℚ :=
  match datos.maxspeed with
  | none => none
  | some ms =>
    let texto := pstrip ms
    if texto = "" then none
    else
      match parseFloat? texto with
      | some q => some q
      | none => none

/-- `_velocidad_kmh`: resolve the speed (km/h) of edge (u, v): use the
edge's own `maxspeed` when present, non-blank after stripping, and
parseable as a float; otherwise look the `highway` road-class tag up in
`MAX_SPEEDS`.  When the table lookup yields nothing (`highway` missing or
not a table key), the source evaluates `float(None)`, raising `TypeError`
— the failure the spec names `UnknownRoadClassError`. -/
def velocidad_kmh (G : WGraph) (u v : ℕ) : Except PyErr ℚ :=
  match edgeData? G u v with
  | none => .error .keyError
  | some datos =>
    match maxspeedParse datos with
    | some q => .ok q
    | none =>
      match datos.highway.bind (slookup MAX_SPEEDS) with
      | none => .error .typeError
      | some valor =>
        match parseFloat? valor with
        | some q => .ok q
        | none => .error .valueError

/-- `mas_rapido` (weight policy `fastest`): travel time in seconds,
`length / (speed_kmh / 3.6)`.  `TypeError` when `length` is absent
(`float(None)`); `ZeroDivisionError` when the resolved speed is zero. -/
def mas_rapido (G : WGraph) (u v : ℕ) : Except PyErr ℚ :=
  match edgeData? G u v with
  | none => .error .keyError
  | some datos =>
    match datos.length with
    | none => .error .typeError
    | some longitud_m =>
      match velocidad_kmh G u v with
      | .error e => .error e
      | .ok vel_kmh =>
        let vel_m_s := vel_kmh / (36 / 10)
        if vel_m_s = 0 then .error .zeroDivisionError
        else .ok (longitud_m / vel_m_s)

/-- `mas_rapido_semaforos` (weight policy `fastest_with_lights`):
`mas_rapido` plus the expected signal delay `p * tiempo_parada`
with `p = 0.8`, `tiempo_parada = 30.0`. -/
def mas_rapido_semaforos (G : WGraph) (u v : ℕ) : Except PyErr ℚ :=
  match mas_rapido G u v with
  | .error e => .error e
  | .ok tiempo_base =>
    let p : ℚ := 8 / 10
    let tiempo_parada : ℚ := 30
    .ok (tiempo_base + p * tiempo_parada)

/-- Test data: an edge with a parseable `maxspeed` attribute. -/
def edgeMs50 : EdgeData :=
  { length := some 100, name := some "Calle Mayor", highway := some "primary",
    maxspeed := some "50" }

/-- Test data: no `maxspeed`, road class `residential`. -/
def edgeResidential : EdgeData :=
  { length := some 60, name := none, highway := some "residential",
    maxspeed := none }

/-- Test data: no `maxspeed`, road class outside the static table. -/
def edgeUnknownClass : EdgeData :=
  { length := some 60, name := none, highway := some "cycleway",
    maxspeed := none }

/-- Test graph for the weight-policy claims. -/
def Gspeed : WGraph :=
  { nodes := [0, 1, 2, 3], coordX := fun _ => 0, coordY := fun _ => 0,
    edges := [(0, 1, edgeMs50), (1, 2, edgeResidential), (2, 3, edgeUnknownClass)] }

/-- C3: on an edge (u, v) of the graph, the speed resolution of `mas_rapido`
(`_velocidad_kmh`) uses the edge's own `maxspeed` attribute when it is
present and numerically parseable, and otherwise the static `MAX_SPEEDS`
table keyed by the edge's `highway` road class — in particular, a missing
`maxspeed` with road class "residential" resolves to 30 km/h without error;
when neither source is available the call fails with the `TypeError` raised
by `float(None)` (the failure the spec names `UnknownRoadClassError`). -/
theorem velocidad_kmh_resolution (G : WGraph) (u v : ℕ) (d : EdgeData)
    (hd : edgeData? G u v = some d) :
    (∀ s q, d.maxspeed = some s → pstrip s ≠ "" → parseFloat? (pstrip s) = some q →
        velocidad_kmh G u v = .ok q) ∧
    ((d.maxspeed = none ∨
        ∃ s, d.maxspeed = some s ∧ (pstrip s = "" ∨ parseFloat? (pstrip s) = none)) →
      (∀ h vs q, d.highway = some h → slookup MAX_SPEEDS h = some vs →
          parseFloat? vs = some q → velocidad_kmh G u v = .ok q) ∧
      (d.highway = some "residential" → velocidad_kmh G u v = .ok 30) ∧
      (d.highway.bind (slookup MAX_SPEEDS) = none →
        velocidad_kmh G u v = .error PyErr.typeError)) := by
  constructor
  · intro s q hs hne hp
    simp [velocidad_kmh, hd, maxspeedParse, hs, hne, hp]
  · intro hms
    have hnone : maxspeedParse d = none := by
      rcases hms with h | ⟨s, hs, h | h⟩
      · simp [maxspeedParse, h]
      · simp [maxspeedParse, hs, h]
      · simp [maxspeedParse, hs, h]
    refine ⟨?_, ?_, ?_⟩
    · intro h vs q hh hvs hq
      simp [velocidad_kmh, hd, hnone, hh, hvs, hq]
    · intro hh
      have hlook : slookup MAX_SPEEDS "residential" = some "30" := by decide
      have hp30 : parseFloat? "30" = some 30 := by with_unfolding_all decide
      simp [velocidad_kmh, hd, hnone, hh, hlook, hp30]
    · intro hh
      simp [velocidad_kmh, hd, hnone, hh]

/-- C3 witness: the three resolution scenarios at concrete edges of
`Gspeed`. -/
theorem velocidad_kmh_resolution_witness :
    velocidad_kmh Gspeed 0 1 = .ok 50 ∧ velocidad_kmh Gspeed 1 2 = .ok 30 ∧
      velocidad_kmh Gspeed 2 3 = .error PyErr.typeError :=
  ⟨(velocidad_kmh_resolution Gspeed 0 1 edgeMs50 (by decide)).1 "50" 50 (by decide)
      (by with_unfolding_all decide) (by with_unfolding_all decide),
   ((velocidad_kmh_resolution Gspeed 1 2 edgeResidential (by decide)).2
      (Or.inl (by decide))).2.1 (by decide),
   ((velocidad_kmh_resolution Gspeed 2 3 edgeUnknownClass (by decide)).2
      (Or.inl (by decide))).2.2 (by decide)⟩

/-- C7: whenever `mas_rapido` (weight policy `fastest`) is defined on an
edge, `mas_rapido_semaforos` (`fastest_with_lights`) equals it plus exactly
24.0 seconds — the constant being 0.8 × 30 s. -/
theorem mas_rapido_semaforos_eq_add_24 (G : WGraph) (u v : ℕ) (t : ℚ)
    (h : mas_rapido G u v = .ok t) :
    mas_rapido_semaforos G u v = .ok (t + 24) := by
  have h24 : (8 : ℚ) / 10 * 30 = 24 := by norm_num
  simp [mas_rapido_semaforos, h, h24]

/-- C7 witness: a concrete edge where `mas_rapido` is defined. -/
theorem mas_rapido_semaforos_eq_add_24_witness :
    mas_rapido Gspeed 0 1 = .ok (36 / 5) ∧
      mas_rapido_semaforos Gspeed 0 1 = .ok (36 / 5 + 24) :=
  ⟨by with_unfolding_all decide,
   mas_rapido_semaforos_eq_add_24 Gspeed 0 1 (36 / 5) (by with_unfolding_all decide)⟩

/-- `_nombre_calle`: street name for edge (u, v): the `name` attribute, or
the fixed label "vía sin nombre" when the attribute is absent or blank
after stripping.  `KeyError` (`G[u][v]`) when (u, v) is not an edge. -/
def nombre_calle (G : WGraph) (u v : ℕ) : Except PyErr String :=
  match edgeData? G u v with
  | none => .error .keyError
  | some datos =>
    match datos.name with
    | none => .ok "vía sin nombre"
    | some nombre =>
      if pstrip nombre = "" then .ok "vía sin nombre" else .ok nombre

/-- The vector-classification core of `_calcular_giro` (the body of the
source function after the vectors are computed; split out purely for
structure): zero-vector checks, cross and dot products, epsilon test,
left/right decision. -/
def giroCore (v1x v1y v2x v2y : ℚ) : Option String :=
  if v1x = 0 ∧ v1y = 0 then none
  else if v2x = 0 ∧ v2y = 0 then none
  else
    let cross := v1x * v2y - v1y * v2x
    let dot := v1x * v2x + v1y * v2y
    let eps : ℚ := 1 / 1000000
    if |cross| < eps ∧ dot > 0 then none
    else if cross > 0 then some "gira a la izquierda"
    else some "gira a la derecha"

/-- `_calcular_giro`: classify the turn at the node where a new segment
starts.  Indices are naturals (the callers only pass non-negative path
indices), so the source's guard `idx <= 0` is `idx = 0`. -/
def calcular_giro (camino : List ℕ) (G : WGraph) (idx_inicio_segmento : ℕ) :
    Option String :=
  if idx_inicio_segmento = 0 ∨ idx_inicio_segmento + 1 ≥ camino.length then none
  else
    let n0 := camino.getD (idx_inicio_segmento - 1) 0
    let n1 := camino.getD idx_inicio_segmento 0
    let n2 := camino.getD (idx_inicio_segmento + 1) 0
    let v1x := G.coordX n1 - G.coordX n0
    let v1y := G.coordY n1 - G.coordY n0
    let v2x := G.coordX n2 - G.coordX n1
    let v2y := G.coordY n2 - G.coordY n1
    giroCore v1x v1y v2x v2y

/-- The arrival vector `node[i] - node[i-1]` of the turn classifier, read
off the node coordinates (statement-side abbreviation). -/
def vLlegada (camino : List ℕ) (G : WGraph) (i : ℕ) : ℚ × ℚ :=
  (G.coordX (camino.getD i 0) - G.coordX (camino.getD (i - 1) 0),
   G.coordY (camino.getD i 0) - G.coordY (camino.getD (i - 1) 0))

/-- The departure vector `node[i+1] - node[i]` of the turn classifier
(statement-side abbreviation). -/
def vSalida (camino : List ℕ) (G : WGraph) (i : ℕ) : ℚ × ℚ :=
  (G.coordX (camino.getD (i + 1) 0) - G.coordX (camino.getD i 0),
   G.coordY (camino.getD (i + 1) 0) - G.coordY (camino.getD i 0))

/-- Round half to even to an integer (the rounding used by Python string
formatting). -/
def roundHalfEven (q : ℚ) : ℤ :=
  let f := ⌊q⌋
  let r := q - f
  if r < 1 / 2 then f
  else if 1 / 2 < r then f + 1
  else if f % 2 = 0 then f else f + 1

/-- Model of the float format `f"{q:.2f}"` (two decimals, round half to
even, as Python formats the idealised real value). -/
def fmt2 (q : ℚ) : String :=
  let n := roundHalfEven (q * 100)
  let sign := if n < 0 then "-" else ""
  let m := n.natAbs
  let ip := m / 100
  let fp := m % 100
  sign ++ toString ip ++ "." ++
    (if fp < 10 then "0" ++ toString fp else toString fp)

/-- `_frase_segmento`: one navigation phrase for a street segment. -/
def frase_segmento (nombre : String) (dist_m : ℚ) (es_primero : Bool)
    (giro : Option String) : String :=
  let dist_km := dist_m / 1000
  let inicio :=
    if es_primero then "Sal desde el origen y "
    else
      match giro with
      | some g => "Luego " ++ g ++ " y "
      | none => "Luego "
  if nombre = "vía sin nombre" then
    inicio ++ "continúa durante " ++ fmt2 dist_km ++ " km por una vía sin nombre."
  else
    inicio ++ "sigue por " ++ nombre ++ " durante " ++ fmt2 dist_km ++ " km."

/-- A street segment of `construir_instrucciones`: name, accumulated
length, and start/end indices into the path. -/
structure Segmento where
  nombre : String
  dist : ℚ
  inicio : ℕ
  fin : ℕ
deriving DecidableEq

/-- The segment-building loop of `construir_instrucciones`
(`for i in range(1, len(camino) - 1)`): `rem` is the number of iterations
left, `i` the current path index; the running state is the current street
name, accumulated distance, segment start index, and closed segments. -/
def segLoop (G : WGraph) (camino : List ℕ) :
    ℕ → ℕ → String → ℚ → ℕ → List Segmento →
      Except PyErr (List Segmento × String × ℚ × ℕ)
  | 0, _, nombre_actual, dist_actual, inicio_idx, segmentos =>
    .ok (segmentos, nombre_actual, dist_actual, inicio_idx)
  | rem + 1, i, nombre_actual, dist_actual, inicio_idx, segmentos =>
    let u := camino.getD i 0
    let v := camino.getD (i + 1) 0
    match edgeData? G u v with
    | none => .error .keyError
    | some datos =>
      match nombre_calle G u v with
      | .error e => .error e
      | .ok nombre =>
        let longitud := datos.length.getD 0
        if nombre = nombre_actual then
          segLoop G camino rem (i + 1) nombre_actual (dist_actual + longitud)
            inicio_idx segmentos
        else
          segLoop G camino rem (i + 1) nombre longitud i
            (segmentos ++ [⟨nombre_actual, dist_actual, inicio_idx, i⟩])

/-- The phrase-building loop of `construir_instrucciones` over the closed
segment list: `j` is the running segment index, `total` the accumulated
total distance. -/
def fraseLoop (G : WGraph) (camino : List ℕ) :
    List Segmento → ℕ → ℚ → List String → List String × ℚ
  | [], _, total, acc => (acc, total)
  | seg :: rest, j, total, acc =>
    let giro := if j = 0 then none else calcular_giro camino G seg.inicio
    let frase := frase_segmento seg.nombre seg.dist (j == 0) giro
    fraseLoop G camino rest (j + 1) (total + seg.dist) (acc ++ [frase])

/-- `construir_instrucciones`: turn a node path into ordered navigation
instructions (segment building, then phrase construction, then the final
total-distance line). -/
def construir_instrucciones (camino : List ℕ) (G : WGraph) :
    Except PyErr (List String) :=
  match camino with
  | [] => .ok ["Origen y destino coinciden. Ya estás en tu destino."]
  | [_] => .ok ["Origen y destino coinciden. Ya estás en tu destino."]
  | u0 :: v0 :: _ =>
    match nombre_calle G u0 v0 with
    | .error e => .error e
    | .ok nombre0 =>
      match edgeData? G u0 v0 with
      | none => .error .keyError
      | some datos0 =>
        let dist0 := datos0.length.getD 0
        match segLoop G camino (camino.length - 2) 1 nombre0 dist0 0 [] with
        | .error e => .error e
        | .ok (segs, nombre_fin, dist_fin, inicio_fin) =>
          let segmentos :=
            segs ++ [⟨nombre_fin, dist_fin, inicio_fin, camino.length - 1⟩]
          let res := fraseLoop G camino segmentos 0 0 []
          .ok (res.1 ++
            ["Distancia total aproximada: " ++ fmt2 (res.2 / 1000) ++ " km."])

/-- Case analysis of `giroCore` on arbitrary arrival and departure
vectors. -/
theorem giroCore_spec (v1x v1y v2x v2y : ℚ) :
    ((v1x = 0 ∧ v1y = 0) → giroCore v1x v1y v2x v2y = none) ∧
    ((v2x = 0 ∧ v2y = 0) → giroCore v1x v1y v2x v2y = none) ∧
    (¬(v1x = 0 ∧ v1y = 0) → ¬(v2x = 0 ∧ v2y = 0) →
      ((|v1x * v2y - v1y * v2x| < 1 / 1000000 ∧
          0 < v1x * v2x + v1y * v2y) → giroCore v1x v1y v2x v2y = none) ∧
      (¬(|v1x * v2y - v1y * v2x| < 1 / 1000000 ∧
          0 < v1x * v2x + v1y * v2y) →
        (0 < v1x * v2y - v1y * v2x →
          giroCore v1x v1y v2x v2y = some "gira a la izquierda") ∧
        (v1x * v2y - v1y * v2x ≤ 0 →
          giroCore v1x v1y v2x v2y = some "gira a la derecha"))) := by
  refine ⟨?_, ?_, ?_⟩
  · intro h
    simp [giroCore, h.1, h.2]
  · intro h
    by_cases hz : v1x = 0 ∧ v1y = 0
    · simp [giroCore, hz.1, hz.2]
    · simp [giroCore, h.1, h.2]
  · intro hz1 hz2
    constructor
    · intro hsd
      simp only [giroCore]
      rw [if_neg hz1, if_neg hz2, if_pos hsd]
    · intro hsd
      constructor
      · intro hc
        simp only [giroCore]
        rw [if_neg hz1, if_neg hz2, if_neg hsd, if_pos hc]
      · intro hc
        simp only [giroCore]
        rw [if_neg hz1, if_neg hz2, if_neg hsd, if_neg (not_lt.mpr hc)]

/-- On an interior index, `_calcular_giro` is `giroCore` applied to the
arrival and departure vectors. -/
theorem calcular_giro_eq_core (G : WGraph) (camino : List ℕ) (i : ℕ)
    (h0 : 0 < i) (h1 : i + 1 < camino.length) :
    calcular_giro camino G i =
      giroCore (vLlegada camino G i).1 (vLlegada camino G i).2
        (vSalida camino G i).1 (vSalida camino G i).2 := by
  have hguard : ¬(i = 0 ∨ i + 1 ≥ camino.length) := by omega
  unfold calcular_giro
  rw [if_neg hguard]
  rfl

/-- C5: for a path and an interior segment-start index `i`
(`0 < i < len - 1`), the turn classifier computes the arrival vector
`node[i] - node[i-1]` and the departure vector `node[i+1] - node[i]`; it
reports no turn when either vector is zero; it reports no turn (straight)
when `|cross| < 1e-6` and `dot > 0`; otherwise it reports "turn left"
exactly when `cross > 0` and "turn right" exactly when `cross ≤ 0`
(including the near-reversal case `cross ≈ 0`, `dot ≤ 0`). -/
theorem calcular_giro_classification (G : WGraph) (camino : List ℕ) (i : ℕ)
    (h0 : 0 < i) (h1 : i + 1 < camino.length) :
    (((vLlegada camino G i).1 = 0 ∧ (vLlegada camino G i).2 = 0) →
      calcular_giro camino G i = none) ∧
    (((vSalida camino G i).1 = 0 ∧ (vSalida camino G i).2 = 0) →
      calcular_giro camino G i = none) ∧
    (¬((vLlegada camino G i).1 = 0 ∧ (vLlegada camino G i).2 = 0) →
      ¬((vSalida camino G i).1 = 0 ∧ (vSalida camino G i).2 = 0) →
      ((|(vLlegada camino G i).1 * (vSalida camino G i).2 -
            (vLlegada camino G i).2 * (vSalida camino G i).1| < 1 / 1000000 ∧
          0 < (vLlegada camino G i).1 * (vSalida camino G i).1 +
            (vLlegada camino G i).2 * (vSalida camino G i).2) →
        calcular_giro camino G i = none) ∧
      (¬(|(vLlegada camino G i).1 * (vSalida camino G i).2 -
            (vLlegada camino G i).2 * (vSalida camino G i).1| < 1 / 1000000 ∧
          0 < (vLlegada camino G i).1 * (vSalida camino G i).1 +
            (vLlegada camino G i).2 * (vSalida camino G i).2) →
        (0 < (vLlegada camino G i).1 * (vSalida camino G i).2 -
            (vLlegada camino G i).2 * (vSalida camino G i).1 →
          calcular_giro camino G i = some "gira a la izquierda") ∧
        ((vLlegada camino G i).1 * (vSalida camino G i).2 -
            (vLlegada camino G i).2 * (vSalida camino G i).1 ≤ 0 →
          calcular_giro camino G i = some "gira a la derecha"))) := by
  rw [calcular_giro_eq_core G camino i h0 h1]
  exact giroCore_spec (vLlegada camino G i).1 (vLlegada camino G i).2
    (vSalida camino G i).1 (vSalida camino G i).2

/-- The spec §8 scenario graph A(0,0), B(1,0), C(1,1) with edges
A→B "Main St" and B→C "Side St". -/
def Gturn : WGraph :=
  { nodes := [0, 1, 2],
    coordX := fun n => if n = 0 then 0 else 1,
    coordY := fun n => if n = 2 then 1 else 0,
    edges := [(0, 1, ⟨some 100, some "Main St", none, some "50"⟩),
              (1, 2, ⟨some 50, some "Side St", none, some "30"⟩)] }

/-- C5 witness: at the interior index 1 of the path A→B→C in `Gturn` the
cross product is 1 > 0, so the classifier reports a left turn. -/
theorem calcular_giro_classification_witness :
    calcular_giro [0, 1, 2] Gturn 1 = some "gira a la izquierda" :=
  (((calcular_giro_classification Gturn [0, 1, 2] 1 (by decide) (by decide)).2.2
      (by with_unfolding_all decide) (by with_unfolding_all decide)).2
      (by with_unfolding_all decide)).1 (by with_unfolding_all decide)

/-- Replace every missing `length` attribute of the graph by `0.0`
(statement-side transformation used to express that `construir_instrucciones`
silently defaults missing lengths to `0.0`). -/
def zeroFillLengths (G : WGraph) : WGraph :=
  { G with
    edges := G.edges.map (fun e =>
      (e.1, e.2.1, { e.2.2 with length := some (e.2.2.length.getD 0) })) }

theorem edgeData?_zeroFill (G : WGraph) (u v : ℕ) :
    edgeData? (zeroFillLengths G) u v =
      (edgeData? G u v).map
        (fun d => { d with length := some (d.length.getD 0) }) := by
  unfold edgeData? zeroFillLengths
  rw [List.find?_map, Option.map_map, Option.map_map]
  rfl

theorem nombre_calle_ok (G : WGraph) (u v : ℕ) (d : EdgeData)
    (hd : edgeData? G u v = some d) :
    ∃ nb, nombre_calle G u v = .ok nb := by
  cases hn : d.name with
  | none => exact ⟨"vía sin nombre", by simp [nombre_calle, hd, hn]⟩
  | some s =>
    by_cases hb : pstrip s = ""
    · exact ⟨"vía sin nombre", by simp [nombre_calle, hd, hn, hb]⟩
    · exact ⟨s, by simp [nombre_calle, hd, hn, hb]⟩

theorem nombre_calle_zeroFill (G : WGraph) (u v : ℕ) :
    nombre_calle (zeroFillLengths G) u v = nombre_calle G u v := by
  unfold nombre_calle
  rw [edgeData?_zeroFill]
  cases edgeData? G u v <;> rfl

theorem calcular_giro_zeroFill (camino : List ℕ) (G : WGraph) (i : ℕ) :
    calcular_giro camino (zeroFillLengths G) i = calcular_giro camino G i := rfl

theorem fraseLoop_zeroFill (G : WGraph) (camino : List ℕ) :
    ∀ (segs : List Segmento) (j : ℕ) (total : ℚ) (acc : List String),
      fraseLoop (zeroFillLengths G) camino segs j total acc =
        fraseLoop G camino segs j total acc := by
  intro segs
  induction segs with
  | nil => intro j total acc; rfl
  | cons seg rest ih =>
    intro j total acc
    simp only [fraseLoop, calcular_giro_zeroFill]
    exact ih _ _ _

theorem segLoop_ok (G : WGraph) (camino : List ℕ)
    (hE : ∀ k, k + 1 < camino.length →
      (edgeData? G (camino.getD k 0) (camino.getD (k + 1) 0)).isSome) :
    ∀ (rem i : ℕ), i + rem + 1 = camino.length → 1 ≤ i →
      ∀ (na : String) (da : ℚ) (ii : ℕ) (acc : List Segmento),
        ∃ out, segLoop G camino rem i na da ii acc = .ok out ∧
          segLoop (zeroFillLengths G) camino rem i na da ii acc = .ok out := by
  intro rem
  induction rem with
  | zero =>
    intro i hi h1 na da ii acc
    exact ⟨(acc, na, da, ii), rfl, rfl⟩
  | succ rem ih =>
    intro i hi h1 na da ii acc
    have hk : i + 1 < camino.length := by omega
    obtain ⟨d, hd⟩ : ∃ d,
        edgeData? G (camino.getD i 0) (camino.getD (i + 1) 0) = some d := by
      have hsome := hE i hk
      cases h : edgeData? G (camino.getD i 0) (camino.getD (i + 1) 0) with
      | none => rw [h] at hsome; simp at hsome
      | some d => exact ⟨d, rfl⟩
    obtain ⟨nb, hnb⟩ :=
      nombre_calle_ok G (camino.getD i 0) (camino.getD (i + 1) 0) d hd
    have hd' : edgeData? (zeroFillLengths G) (camino.getD i 0)
        (camino.getD (i + 1) 0) =
        some { d with length := some (d.length.getD 0) } := by
      rw [edgeData?_zeroFill, hd]
      rfl
    have hnb' : nombre_calle (zeroFillLengths G) (camino.getD i 0)
        (camino.getD (i + 1) 0) = .ok nb := by
      rw [nombre_calle_zeroFill]; exact hnb
    have hlen : ({ d with length := some (d.length.getD 0) } :
        EdgeData).length.getD 0 = d.length.getD 0 := by
      cases d.length <;> rfl
    simp only [segLoop, hd, hnb, hd', hnb', hlen]
    by_cases hsame : nb = na
    · simp only [if_pos hsame]
      exact ih (i + 1) (by omega) (by omega) na (da + d.length.getD 0) ii acc
    · simp only [if_neg hsame]
      exact ih (i + 1) (by omega) (by omega) nb (d.length.getD 0) i
        (acc ++ [⟨na, da, ii, i⟩])

/-- C10: on a path of length ≥ 2 whose consecutive pairs are edges of the
graph, `construir_instrucciones` does not fail when an edge lacks the
`length` attribute: the result is the same as on the graph in which every
missing length is replaced by `0.0` — each such edge contributes exactly
0.0 m to its segment's distance and to the final total-distance line. -/
theorem construir_instrucciones_missing_length_default (G : WGraph)
    (camino : List ℕ) (h2 : 2 ≤ camino.length)
    (hE : ∀ k, k + 1 < camino.length →
      (edgeData? G (camino.getD k 0) (camino.getD (k + 1) 0)).isSome) :
    (∃ instr, construir_instrucciones camino G = .ok instr) ∧
      construir_instrucciones camino G =
        construir_instrucciones camino (zeroFillLengths G) := by
  cases camino with
  | nil => simp at h2
  | cons u0 t =>
    cases t with
    | nil => simp at h2
    | cons v0 rest =>
      have h01 : 0 + 1 < (u0 :: v0 :: rest).length := by
        simp
      obtain ⟨d0, hd0⟩ : ∃ d0, edgeData? G u0 v0 = some d0 := by
        have hsome := hE 0 h01
        cases h : edgeData? G u0 v0 with
        | none =>
          have : edgeData? G ((u0 :: v0 :: rest).getD 0 0)
              ((u0 :: v0 :: rest).getD 1 0) = none := h
          rw [this] at hsome
          simp at hsome
        | some d => exact ⟨d, rfl⟩
      obtain ⟨nb0, hnb0⟩ := nombre_calle_ok G u0 v0 d0 hd0
      have hd0' : edgeData? (zeroFillLengths G) u0 v0 =
          some { d0 with length := some (d0.length.getD 0) } := by
        rw [edgeData?_zeroFill, hd0]
        rfl
      have hnb0' : nombre_calle (zeroFillLengths G) u0 v0 = .ok nb0 := by
        rw [nombre_calle_zeroFill]; exact hnb0
      have hlen0 : ({ d0 with length := some (d0.length.getD 0) } :
          EdgeData).length.getD 0 = d0.length.getD 0 := by
        cases d0.length <;> rfl
      obtain ⟨out, hseg, hseg'⟩ := segLoop_ok G (u0 :: v0 :: rest) hE
        ((u0 :: v0 :: rest).length - 2) 1
        (by simp only [List.length_cons]; omega) (by omega) nb0
        (d0.length.getD 0) 0 []
      obtain ⟨segs, nbf, daf, iif⟩ := out
      simp only [construir_instrucciones, hd0, hnb0, hd0', hnb0', hlen0,
        hseg, hseg', fraseLoop_zeroFill]
      exact ⟨⟨_, rfl⟩, trivial⟩

/-- Test graph for C10: the middle edge has no `length` attribute. -/
def Gmiss : WGraph :=
  { nodes := [0, 1, 2, 3],
    coordX := fun n => (n : ℚ),
    coordY := fun _ => 0,
    edges := [(0, 1, ⟨some 100, some "Calle A", none, none⟩),
              (1, 2, ⟨none, some "Calle A", none, none⟩),
              (2, 3, ⟨some 70, some "Calle B", none, none⟩)] }

/-- C10 witness: a concrete path over `Gmiss` whose middle edge lacks the
length attribute. -/
theorem construir_instrucciones_missing_length_default_witness :
    (∃ instr, construir_instrucciones [0, 1, 2, 3] Gmiss = .ok instr) ∧
      construir_instrucciones [0, 1, 2, 3] Gmiss =
        construir_instrucciones [0, 1, 2, 3] (zeroFillLengths Gmiss) :=
  construir_instrucciones_missing_length_default Gmiss [0, 1, 2, 3] (by decide)
    (by
      intro k hk
      simp at hk
      have hk3 : k = 0 ∨ k = 1 ∨ k = 2 := by omega
      rcases hk3 with h | h | h <;> subst h <;> decide)

/-- The edge list of the graph as plain ordered pairs (`G.edges`). -/
def pairsOf (G : WGraph) : List (ℕ × ℕ) := G.edges.map (fun e => (e.1, e.2.1))

/-- Undirected adjacency over a list of node pairs. -/
def adjP (E : List (ℕ × ℕ)) (a b : ℕ) : Prop := (a, b) ∈ E ∨ (b, a) ∈ E

/-- Reachability (in the undirected reading) over a list of node pairs:
reflexive-transitive closure of adjacency. -/
def Reaches (E : List (ℕ × ℕ)) : ℕ → ℕ → Prop :=
  Relation.ReflTransGen (adjP E)

/-- Strict lexicographic comparison of the heap triples
`(priority, counter, node)` — the order by which `heapq` pops. -/
def tupLt (a b : ℚ × ℕ × ℕ) : Bool :=
  a.1 < b.1 || (a.1 = b.1 && (a.2.1 < b.2.1 || (a.2.1 = b.2.1 && a.2.2 < b.2.2)))

/-- `heapq.heappop`: remove and return the least triple (leftmost among
equals; entries are in fact always distinguished by their counter).  The
heap's internal array layout is irrelevant to the algorithms, so the queue
is modelled as a multiset given by a list. -/
def popMin : (ℚ × ℕ × ℕ) → List (ℚ × ℕ × ℕ) → (ℚ × ℕ × ℕ) × List (ℚ × ℕ × ℕ)
  | x, [] => (x, [])
  | x, y :: ys =>
    if tupLt y x then
      let r := popMin y ys
      (r.1, x :: r.2)
    else
      let r := popMin x ys
      (r.1, y :: r.2)

/-- The neighbour-relaxation loop of `dijkstra` (`for x in G.neighbors(v)`):
relax each outgoing neighbour of `v`, updating the distance and parent
dicts and pushing improved entries.  The weight function is modelled as a
total `ℕ → ℕ → ℚ` (`peso(G, ·, ·)` of a policy defined on the edges it is
asked about, the scope of every claim).  `KeyError` when a distance lookup
misses (only possible when a neighbour or `v` is not a node). -/
def dijkstraRelax (G : WGraph) (w : ℕ → ℕ → ℚ) (v : ℕ) :
    List ℕ → List (ℕ × ℚ) → List (ℕ × Option ℕ) → List (ℚ × ℕ × ℕ) → ℕ →
      Except PyErr (List (ℕ × ℚ) × List (ℕ × Option ℕ) × List (ℚ × ℕ × ℕ) × ℕ)
  | [], dist, padre, Q, cnt => .ok (dist, padre, Q, cnt)
  | x :: xs, dist, padre, Q, cnt =>
    match dlookup dist x, dlookup dist v with
    | some dx, some dv =>
      if dx > dv + w v x then
        dijkstraRelax G w v xs (dset dist x (dv + w v x))
          (dset padre x (some v)) (Q ++ [(dv + w v x, cnt, x)]) (cnt + 1)
      else dijkstraRelax G w v xs dist padre Q cnt
    | _, _ => .error .keyError

/-- The main `while Q:` loop of `dijkstra`, with fuel (the source loop
terminates because every iteration pops one entry and pushes happen only
for strict improvements; the wrapper passes ample fuel).  `KeyError` when
`visitado[v]` misses (the popped node is not a node of the graph, possible
only for an origin outside the graph). -/
def dijkstraLoop (G : WGraph) (w : ℕ → ℕ → ℚ) :
    ℕ → List (ℚ × ℕ × ℕ) → List (ℕ × Bool) → List (ℕ × ℚ) →
      List (ℕ × Option ℕ) → ℕ → Except PyErr (List (ℕ × Option ℕ))
  | _, [], _, _, padre, _ => .ok padre
  | 0, _ :: _, _, _, _, _ => .error .fuelOut
  | fuel + 1, q0 :: qrest, vis, dist, padre, cnt =>
    let pm := popMin q0 qrest
    let v := pm.1.2.2
    match dlookup vis v with
    | none => .error .keyError
    | some true => dijkstraLoop G w fuel pm.2 vis dist padre cnt
    | some false =>
      match dijkstraRelax G w v (succs G v) dist padre pm.2 cnt with
      | .error e => .error e
      | .ok (dist', padre', Q', cnt') =>
        dijkstraLoop G w fuel Q' (dset vis v true) dist' padre' cnt'

/-- `dijkstra`: shortest-path-tree computation.  The three dicts are
initialised over `G.nodes` (the source fills all three in one for-loop,
with the same result), `dist[origen] = 0`, the queue starts with
`(0, 0, origen)`, and afterwards the origin's entry is removed from the
parent dict (`if origen in padre: del padre[origen]`). -/
def dijkstra (G : WGraph) (w : ℕ → ℕ → ℚ) (origen : ℕ) :
    Except PyErr (List (ℕ × Option ℕ)) :=
  let padre := dinit (none : Option ℕ) G.nodes
  let visitado := dinit false G.nodes
  let dist := dset (dinit INFTY G.nodes) origen 0
  match dijkstraLoop G w (G.nodes.length + G.edges.length + 2)
      [((0 : ℚ), 0, origen)] visitado dist padre 1 with
  | .error e => .error e
  | .ok padreF => .ok (ddel padreF origen)

/-- The parent-pointer walk of `camino_minimo`
(`while actual != origen: actual = padres[actual]; camino.append(actual)`).
The source appends to a list and reverses at the end; consing and not
reversing yields the same list.  When the current node's parent is `None`,
the next iteration evaluates `padres[None]` and raises `KeyError` (`None`
is never a key), which this embedding reports immediately. -/
def caminoWalk (padres : List (ℕ × Option ℕ)) (origen : ℕ) :
    ℕ → ℕ → List ℕ → Except PyErr (List ℕ)
  | fuel, actual, camino =>
    if actual = origen then .ok camino
    else
      match fuel with
      | 0 => .error .fuelOut
      | fuel + 1 =>
        match dlookup padres actual with
        | none => .error .keyError
        | some none => .error .keyError
        | some (some p) => caminoWalk padres origen fuel p (p :: camino)

/-- `camino_minimo`: shortest path from `origen` to `destino`.  Keys are
naturals, so the `isinstance` hashability guards never fire. -/
def camino_minimo (G : WGraph) (w : ℕ → ℕ → ℚ) (origen destino : ℕ) :
    Except PyErr (List ℕ) :=
  if origen = destino then .ok [origen]
  else
    match dijkstra G w origen with
    | .error e => .error e
    | .ok padres =>
      if (dlookup padres destino).isNone then .ok []
      else caminoWalk padres origen (G.nodes.length + 1) destino [destino]

/-- C8: `camino_minimo` with equal origin and destination returns the
single-node path `[o]` immediately for every graph and weight function —
and no graph traversal happens: when `o` is not even a node of the graph,
`dijkstra` itself would fail with `KeyError` (at `visitado[v]`), yet
`camino_minimo G w o o` still succeeds, showing the shortest-path-tree
computation is never invoked. -/
theorem camino_minimo_same_origin_destination (G : WGraph) (w : ℕ → ℕ → ℚ)
    (o : ℕ) :
    camino_minimo G w o o = .ok [o] ∧
      (o ∉ G.nodes → dijkstra G w o = .error PyErr.keyError) := by
  constructor
  · simp [camino_minimo]
  · intro ho
    have hvis : dlookup (dinit false G.nodes) o = none := by
      rw [dlookup_dinit]; simp [ho]
    have hloop : dijkstraLoop G w (G.nodes.length + G.edges.length + 2)
        [((0 : ℚ), 0, o)] (dinit false G.nodes)
        (dset (dinit INFTY G.nodes) o 0) (dinit (none : Option ℕ) G.nodes) 1 =
        .error PyErr.keyError := by
      show dijkstraLoop G w ((G.nodes.length + G.edges.length + 1) + 1)
        _ _ _ _ _ = _
      simp only [dijkstraLoop, popMin]
      rw [hvis]
    simp only [dijkstra, hloop]

/-- Graph with two nodes and no edges: node 1 is unreachable from node 0. -/
def Gdisc : WGraph :=
  { nodes := [0, 1], coordX := fun _ => 0, coordY := fun _ => 0, edges := [] }

/-- A fixed weight function (no edge weight is ever queried in the
`Gdisc` runs: the graph has no edges). -/
def wOne : ℕ → ℕ → ℚ := fun _ _ => 1

theorem not_reaches_Gdisc : ¬ Reaches (pairsOf Gdisc) 0 1 := by
  intro h
  rcases Relation.ReflTransGen.cases_head h with h01 | ⟨c, hadj, _⟩
  · exact absurd h01 (by decide)
  · rcases hadj with hm | hm <;> simp [pairsOf, Gdisc] at hm

/-- C8 witness: origin 5 is not a node of `Gdisc`, yet
`camino_minimo Gdisc wOne 5 5 = ok [5]`, while `dijkstra` itself fails
there. -/
theorem camino_minimo_same_origin_destination_witness :
    camino_minimo Gdisc wOne 5 5 = .ok [5] ∧
      dijkstra Gdisc wOne 5 = .error PyErr.keyError :=
  ⟨(camino_minimo_same_origin_destination Gdisc wOne 5).1,
   (camino_minimo_same_origin_destination Gdisc wOne 5).2 (by decide)⟩

/-- C1 (refuting run): in the two-node edgeless graph, destination 1 is
distinct from and unreachable from origin 0, and `camino_minimo` raises
`KeyError` instead of returning the empty path: `dijkstra` leaves the
unreachable node in the parent dict mapped to `None`, so the
`destino not in padres` guard does not fire and the parent walk evaluates
`padres[None]`. -/
theorem camino_minimo_unreachable_raises_keyError :
    (0 : ℕ) ≠ 1 ∧ ¬ Reaches (pairsOf Gdisc) 0 1 ∧
      camino_minimo Gdisc wOne 0 1 = .error PyErr.keyError :=
  ⟨by decide, not_reaches_Gdisc, by decide⟩

/-- C2 (refuting run): `dijkstra` on the two-node edgeless graph returns
the dict `{1: None}` — the unreachable node 1 is present as a key (mapped
to `None`), while the claim (and the source's own docstring) says
unreachable nodes are absent from the result. -/
theorem dijkstra_keeps_unreachable_node :
    dijkstra Gdisc wOne 0 = .ok [(1, none)] ∧ ¬ Reaches (pairsOf Gdisc) 0 1 :=
  ⟨by decide, not_reaches_Gdisc⟩

/-- Stable insertion by weight (first component): the new element goes
before the first element of weight ≥ its own, i.e. after every earlier
element of equal weight. -/
def sinsert (x : ℚ × ℕ × ℕ) : List (ℚ × ℕ × ℕ) → List (ℚ × ℕ × ℕ)
  | [] => [x]
  | y :: ys => if x.1 ≤ y.1 then x :: y :: ys else y :: sinsert x ys

/-- Stable insertion sort by weight.  `lista.sort(key=lambda x: x[0])` is a
stable sort by the first component; a stable sort's output is uniquely
determined by its key and input order, so this insertion sort computes the
same list. -/
def ssort : List (ℚ × ℕ × ℕ) → List (ℚ × ℕ × ℕ)
  | [] => []
  | x :: xs => sinsert x (ssort xs)

/-- The weighted edge list of `kruskal`:
`[(peso(G, u, v), u, v) for (u, v) in G.edges]` in enumeration order. -/
def kruskalLista (G : WGraph) (w : ℕ → ℕ → ℚ) : List (ℚ × ℕ × ℕ) :=
  G.edges.map (fun e => (w e.1 e.2.1, e.1, e.2.1))

/-- The component merge of `kruskal`
(`nueva = C[u] | C[v]; for w in nueva: C[w] = nueva`).  The component dict
over `G.nodes` is modelled as a function; outside the node set it returns
`∅` where Python would raise `KeyError` (the claims only concern graphs
whose edge endpoints are nodes). -/
def mergeC (C : ℕ → Finset ℕ) (u v : ℕ) : ℕ → Finset ℕ :=
  fun x => if x ∈ C u ∪ C v then C u ∪ C v else C x

/-- The greedy loop of `kruskal` (`while lista: c, u, v = lista.pop(0) ...`):
take edges in order, keep an edge iff its endpoints lie in different
components, merging the two components. -/
def kruskalGo : List (ℚ × ℕ × ℕ) → (ℕ → Finset ℕ) → List (ℕ × ℕ)
  | [], _ => []
  | (_, u, v) :: rest, C =>
    if C u ≠ C v then (u, v) :: kruskalGo rest (mergeC C u v)
    else kruskalGo rest C

/-- `C = {v: {v} for v in G.nodes}` as a function (∅ outside the nodes). -/
def initC (N : List ℕ) : ℕ → Finset ℕ :=
  fun v => if v ∈ N then {v} else ∅

/-- `kruskal`: weighted edge list, stable sort by weight, then the greedy
component-merging loop; returns the kept edges in acceptance order. -/
def kruskal (G : WGraph) (w : ℕ → ℕ → ℚ) : List (ℕ × ℕ) :=
  kruskalGo (ssort (kruskalLista G w)) (initC G.nodes)

/-- The component bookkeeping of `kruskal` run over plain edge pairs
(weights play no role in the partition): the resulting partition
function. -/
def unionFold : List (ℕ × ℕ) → (ℕ → Finset ℕ) → (ℕ → Finset ℕ)
  | [], C => C
  | (u, v) :: rest, C => unionFold rest (if C u ≠ C v then mergeC C u v else C)

/-- Number of connected components of the node list `N` under the edge-pair
list `E`: the number of distinct classes of the union partition.  By
`unionFold_partitions` the class of `v` is exactly the set of nodes of `N`
reachable from `v` along `E`, so this is the graph-theoretic component
count. -/
def numComponentsP (N : List ℕ) (E : List (ℕ × ℕ)) : ℕ :=
  (N.toFinset.image (unionFold E (initC N))).card

/-- `C` partitions the node set `N` into the reachability classes of the
edge list `E`: for `v ∈ N`, membership in `C v` is reachability from `v`
within `N`. -/
def Partitions (C : ℕ → Finset ℕ) (N : Finset ℕ) (E : List (ℕ × ℕ)) : Prop :=
  ∀ v ∈ N, ∀ u : ℕ, u ∈ C v ↔ u ∈ N ∧ Reaches E v u

theorem adjP_symm (E : List (ℕ × ℕ)) : Symmetric (adjP E) := by
  intro a b h
  rcases h with h | h
  · exact Or.inr h
  · exact Or.inl h

theorem reaches_refl (E : List (ℕ × ℕ)) (a : ℕ) : Reaches E a a :=
  Relation.ReflTransGen.refl

theorem reaches_symm (E : List (ℕ × ℕ)) {a b : ℕ} (h : Reaches E a b) :
    Reaches E b a :=
  (Relation.ReflTransGen.symmetric (adjP_symm E)) h

theorem reaches_trans (E : List (ℕ × ℕ)) {a b c : ℕ} (h1 : Reaches E a b)
    (h2 : Reaches E b c) : Reaches E a c :=
  Relation.ReflTransGen.trans h1 h2

theorem reaches_mono {E₁ E₂ : List (ℕ × ℕ)} (h : ∀ p, p ∈ E₁ → p ∈ E₂)
    {a b : ℕ} (hr : Reaches E₁ a b) : Reaches E₂ a b := by
  refine Relation.ReflTransGen.mono ?_ hr
  intro x y hxy
  rcases hxy with hm | hm
  · exact Or.inl (h _ hm)
  · exact Or.inr (h _ hm)

theorem reaches_nil {a b : ℕ} (h : Reaches [] a b) : a = b := by
  rcases Relation.ReflTransGen.cases_head h with heq | ⟨c, hadj, _⟩
  · exact heq
  · rcases hadj with hm | hm <;> simp at hm

/-- Appending one edge (u, v) to the edge list merges exactly the
reachability classes of `u` and `v`. -/
theorem reaches_append_single (E : List (ℕ × ℕ)) (u v a b : ℕ) :
    Reaches (E ++ [(u, v)]) a b ↔
      Reaches E a b ∨ (Reaches E a u ∧ Reaches E v b) ∨
        (Reaches E a v ∧ Reaches E u b) := by
  constructor
  · intro h
    induction h with
    | refl => exact Or.inl (reaches_refl E a)
    | @tail c d hac hadj ih =>
      have hd : adjP E c d ∨ (c = u ∧ d = v) ∨ (c = v ∧ d = u) := by
        rcases hadj with hm | hm
        · rcases List.mem_append.mp hm with h' | h'
          · exact Or.inl (Or.inl h')
          · simp at h'
            exact Or.inr (Or.inl ⟨h'.1, h'.2⟩)
        · rcases List.mem_append.mp hm with h' | h'
          · exact Or.inl (Or.inr h')
          · simp at h'
            exact Or.inr (Or.inr ⟨h'.2, h'.1⟩)
      have step : ∀ x y : ℕ, adjP E x y → Reaches E x y := fun x y hxy =>
        Relation.ReflTransGen.single hxy
      rcases hd with hcd | ⟨hc, hdv⟩ | ⟨hc, hdu⟩
      · rcases ih with h1 | ⟨h1, h2⟩ | ⟨h1, h2⟩
        · exact Or.inl (reaches_trans E h1 (step _ _ hcd))
        · exact Or.inr (Or.inl ⟨h1, reaches_trans E h2 (step _ _ hcd)⟩)
        · exact Or.inr (Or.inr ⟨h1, reaches_trans E h2 (step _ _ hcd)⟩)
      · rw [hc] at ih
        rw [hdv]
        rcases ih with h1 | ⟨h1, h2⟩ | ⟨h1, h2⟩
        · exact Or.inr (Or.inl ⟨h1, reaches_refl E v⟩)
        · exact Or.inr (Or.inl ⟨h1, reaches_refl E v⟩)
        · exact Or.inl h1
      · rw [hc] at ih
        rw [hdu]
        rcases ih with h1 | ⟨h1, h2⟩ | ⟨h1, h2⟩
        · exact Or.inr (Or.inr ⟨h1, reaches_refl E u⟩)
        · exact Or.inl h1
        · exact Or.inr (Or.inr ⟨h1, reaches_refl E u⟩)
  · intro h
    have hmono : ∀ {x y : ℕ}, Reaches E x y → Reaches (E ++ [(u, v)]) x y :=
      fun hxy => reaches_mono (fun p hp => List.mem_append.mpr (Or.inl hp)) hxy
    have huv : Reaches (E ++ [(u, v)]) u v :=
      Relation.ReflTransGen.single
        (Or.inl (List.mem_append.mpr (Or.inr (by simp))))
    rcases h with h1 | ⟨h1, h2⟩ | ⟨h1, h2⟩
    · exact hmono h1
    · exact reaches_trans _ (reaches_trans _ (hmono h1) huv) (hmono h2)
    · exact reaches_trans _
        (reaches_trans _ (hmono h1) (reaches_symm _ huv)) (hmono h2)

theorem partitions_self_mem {C : ℕ → Finset ℕ} {N : Finset ℕ}
    {E : List (ℕ × ℕ)} (hC : Partitions C N E) {w : ℕ} (hw : w ∈ N) :
    w ∈ C w :=
  (hC w hw w).mpr ⟨hw, reaches_refl E w⟩

theorem partitions_class_eq {C : ℕ → Finset ℕ} {N : Finset ℕ}
    {E : List (ℕ × ℕ)} (hC : Partitions C N E) {w x : ℕ} (hw : w ∈ N)
    (hx : x ∈ N) (hmem : x ∈ C w) : C x = C w := by
  have hr : Reaches E w x := ((hC w hw x).mp hmem).2
  ext y
  rw [hC x hx y, hC w hw y]
  constructor
  · rintro ⟨hyN, hy⟩
    exact ⟨hyN, reaches_trans E hr hy⟩
  · rintro ⟨hyN, hy⟩
    exact ⟨hyN, reaches_trans E (reaches_symm E hr) hy⟩

/-- One `kruskal` step preserves the partition invariant, extending the
edge list by the considered edge. -/
theorem partitions_step {C : ℕ → Finset ℕ} {N : Finset ℕ}
    {E : List (ℕ × ℕ)} (hC : Partitions C N E) {u v : ℕ} (hu : u ∈ N)
    (hv : v ∈ N) :
    Partitions (if C u ≠ C v then mergeC C u v else C) N (E ++ [(u, v)]) := by
  have hmono : ∀ {x y : ℕ}, Reaches E x y → Reaches (E ++ [(u, v)]) x y :=
    fun hxy => reaches_mono (fun p hp => List.mem_append.mpr (Or.inl hp)) hxy
  by_cases hne : C u ≠ C v
  · rw [if_pos hne]
    intro w hw x
    unfold mergeC
    by_cases hwm : w ∈ C u ∪ C v
    · rw [if_pos hwm]
      have hwreach : Reaches E u w ∨ Reaches E v w := by
        rcases Finset.mem_union.mp hwm with h | h
        · exact Or.inl ((hC u hu w).mp h).2
        · exact Or.inr ((hC v hv w).mp h).2
      constructor
      · intro hx
        rcases Finset.mem_union.mp hx with hxu | hxv
        · obtain ⟨hxN, hux⟩ := (hC u hu x).mp hxu
          refine ⟨hxN, ?_⟩
          rcases hwreach with hw' | hw'
          · exact hmono (reaches_trans E (reaches_symm E hw') hux)
          · exact (reaches_append_single E u v w x).mpr
              (Or.inr (Or.inr ⟨reaches_symm E hw', hux⟩))
        · obtain ⟨hxN, hvx⟩ := (hC v hv x).mp hxv
          refine ⟨hxN, ?_⟩
          rcases hwreach with hw' | hw'
          · exact (reaches_append_single E u v w x).mpr
              (Or.inr (Or.inl ⟨reaches_symm E hw', hvx⟩))
          · exact hmono (reaches_trans E (reaches_symm E hw') hvx)
      · rintro ⟨hxN, hwx⟩
        rcases (reaches_append_single E u v w x).mp hwx with h1 | ⟨h1, h2⟩ | ⟨h1, h2⟩
        · rcases hwreach with hw' | hw'
          · exact Finset.mem_union_left _
              ((hC u hu x).mpr ⟨hxN, reaches_trans E hw' h1⟩)
          · exact Finset.mem_union_right _
              ((hC v hv x).mpr ⟨hxN, reaches_trans E hw' h1⟩)
        · exact Finset.mem_union_right _ ((hC v hv x).mpr ⟨hxN, h2⟩)
        · exact Finset.mem_union_left _ ((hC u hu x).mpr ⟨hxN, h2⟩)
    · rw [if_neg hwm]
      rw [hC w hw x]
      constructor
      · rintro ⟨hxN, hr⟩
        exact ⟨hxN, hmono hr⟩
      · rintro ⟨hxN, hr⟩
        refine ⟨hxN, ?_⟩
        rcases (reaches_append_single E u v w x).mp hr with h1 | ⟨h1, h2⟩ | ⟨h1, h2⟩
        · exact h1
        · exact absurd (Finset.mem_union_left _
            ((hC u hu w).mpr ⟨hw, reaches_symm E h1⟩)) hwm
        · exact absurd (Finset.mem_union_right _
            ((hC v hv w).mpr ⟨hw, reaches_symm E h1⟩)) hwm
  · rw [if_neg hne]
    have heq : C u = C v := not_not.mp hne
    have huv : Reaches E u v := by
      have hv' : v ∈ C u := heq ▸ partitions_self_mem hC hv
      exact ((hC u hu v).mp hv').2
    intro w hw x
    rw [hC w hw x]
    constructor
    · rintro ⟨hxN, hr⟩
      exact ⟨hxN, hmono hr⟩
    · rintro ⟨hxN, hr⟩
      refine ⟨hxN, ?_⟩
      rcases (reaches_append_single E u v w x).mp hr with h1 | ⟨h1, h2⟩ | ⟨h1, h2⟩
      · exact h1
      · exact reaches_trans E (reaches_trans E h1 huv) h2
      · exact reaches_trans E (reaches_trans E h1 (reaches_symm E huv)) h2

/-- Merging two distinct classes reduces the number of classes by exactly
one. -/
theorem card_image_mergeC {C : ℕ → Finset ℕ} {N : Finset ℕ}
    {E : List (ℕ × ℕ)} (hC : Partitions C N E) {u v : ℕ} (hu : u ∈ N)
    (hv : v ∈ N) (hne : C u ≠ C v) :
    (N.image (mergeC C u v)).card + 1 = (N.image C).card := by
  have hCu : C u ∈ N.image C := Finset.mem_image.mpr ⟨u, hu, rfl⟩
  have hCv : C v ∈ N.image C := Finset.mem_image.mpr ⟨v, hv, rfl⟩
  have himg : N.image (mergeC C u v) =
      insert (C u ∪ C v) (((N.image C).erase (C u)).erase (C v)) := by
    ext S
    simp only [Finset.mem_image, Finset.mem_insert, Finset.mem_erase]
    constructor
    · rintro ⟨w, hw, hSw⟩
      by_cases hwm : w ∈ C u ∪ C v
      · left
        rw [← hSw]
        unfold mergeC
        rw [if_pos hwm]
      · right
        have hS : S = C w := by
          rw [← hSw]
          unfold mergeC
          rw [if_neg hwm]
        have hCwu : C w ≠ C u := by
          intro he
          exact hwm (Finset.mem_union_left _
            (he ▸ partitions_self_mem hC hw))
        have hCwv : C w ≠ C v := by
          intro he
          exact hwm (Finset.mem_union_right _
            (he ▸ partitions_self_mem hC hw))
        exact ⟨by rw [hS]; exact hCwv, by rw [hS]; exact hCwu,
          ⟨w, hw, hS.symm⟩⟩
    · rintro (hS | ⟨hSv, hSu, w, hw, hSw⟩)
      · refine ⟨u, hu, ?_⟩
        unfold mergeC
        rw [if_pos (Finset.mem_union_left _ (partitions_self_mem hC hu))]
        exact hS.symm
      · refine ⟨w, hw, ?_⟩
        have hwm : w ∉ C u ∪ C v := by
          intro hm
          rcases Finset.mem_union.mp hm with h | h
          · exact hSu (hSw ▸ partitions_class_eq hC hu hw h)
          · exact hSv (hSw ▸ partitions_class_eq hC hv hw h)
        unfold mergeC
        rw [if_neg hwm]
        exact hSw
  have hnotin : (C u ∪ C v) ∉ ((N.image C).erase (C u)).erase (C v) := by
    intro hmem
    have h1 := Finset.mem_of_mem_erase hmem
    have h2 := Finset.mem_of_mem_erase h1
    obtain ⟨w, hw, hSw⟩ := Finset.mem_image.mp h2
    have hu' : u ∈ C w := by
      rw [hSw]
      exact Finset.mem_union_left _ (partitions_self_mem hC hu)
    have hv' : v ∈ C w := by
      rw [hSw]
      exact Finset.mem_union_right _ (partitions_self_mem hC hv)
    exact hne ((partitions_class_eq hC hw hu hu').trans
      (partitions_class_eq hC hw hv hv').symm)
  have hvmem : C v ∈ (N.image C).erase (C u) :=
    Finset.mem_erase.mpr ⟨fun he => hne he.symm, hCv⟩
  have hcard2 : 1 < (N.image C).card :=
    Finset.one_lt_card.mpr ⟨C u, hCu, C v, hCv, hne⟩
  rw [himg, Finset.card_insert_of_not_mem hnotin,
    Finset.card_erase_of_mem hvmem, Finset.card_erase_of_mem hCu]
  omega

theorem partitions_initC (N : List ℕ) : Partitions (initC N) N.toFinset [] := by
  intro v hv u
  have hvN : v ∈ N := List.mem_toFinset.mp hv
  unfold initC
  rw [if_pos hvN]
  simp only [Finset.mem_singleton]
  constructor
  · intro h
    subst h
    exact ⟨hv, reaches_refl [] u⟩
  · rintro ⟨hu, hr⟩
    exact (reaches_nil hr).symm

theorem card_image_initC (N : List ℕ) :
    (N.toFinset.image (initC N)).card = N.toFinset.card := by
  rw [Finset.card_image_of_injOn]
  intro a ha b hb hab
  have ha' : a ∈ N := List.mem_toFinset.mp ha
  have hb' : b ∈ N := List.mem_toFinset.mp hb
  simpa [initC, ha', hb'] using hab

/-- Two partition functions representing reachability over equivalent edge
lists agree on the node set. -/
theorem partitions_eq_on {C₁ C₂ : ℕ → Finset ℕ} {N : Finset ℕ}
    {E₁ E₂ : List (ℕ × ℕ)} (h1 : Partitions C₁ N E₁)
    (h2 : Partitions C₂ N E₂) (hmem : ∀ p : ℕ × ℕ, p ∈ E₁ ↔ p ∈ E₂)
    {v : ℕ} (hv : v ∈ N) : C₁ v = C₂ v := by
  ext u
  rw [h1 v hv u, h2 v hv u]
  have hr : ∀ a b : ℕ, Reaches E₁ a b ↔ Reaches E₂ a b := fun a b =>
    ⟨reaches_mono (fun p hp => (hmem p).mp hp),
     reaches_mono (fun p hp => (hmem p).mpr hp)⟩
  rw [hr]

theorem unionFold_partitions :
    ∀ (E : List (ℕ × ℕ)) (C : ℕ → Finset ℕ) (N : Finset ℕ)
      (E₀ : List (ℕ × ℕ)), Partitions C N E₀ →
      (∀ p ∈ E, p.1 ∈ N ∧ p.2 ∈ N) →
      Partitions (unionFold E C) N (E₀ ++ E) := by
  intro E
  induction E with
  | nil =>
    intro C N E₀ hC _
    simpa using hC
  | cons e rest ih =>
    intro C N E₀ hC hend
    obtain ⟨u, v⟩ := e
    have hu : u ∈ N := (hend (u, v) (List.mem_cons_self _ _)).1
    have hv : v ∈ N := (hend (u, v) (List.mem_cons_self _ _)).2
    have h1 := partitions_step hC hu hv
    have h2 := ih _ N (E₀ ++ [(u, v)]) h1
      (fun p hp => hend p (List.mem_cons_of_mem _ hp))
    show Partitions (unionFold rest (if C u ≠ C v then mergeC C u v else C)) N
      (E₀ ++ (u, v) :: rest)
    simpa [List.append_assoc] using h2

theorem sinsert_perm (x : ℚ × ℕ × ℕ) (l : List (ℚ × ℕ × ℕ)) :
    (sinsert x l).Perm (x :: l) := by
  induction l with
  | nil => simp [sinsert]
  | cons y ys ih =>
    by_cases h : x.1 ≤ y.1
    · simp [sinsert, h]
    · simp only [sinsert, if_neg h]
      exact (ih.cons y).trans (List.Perm.swap x y ys)

theorem ssort_perm (l : List (ℚ × ℕ × ℕ)) : (ssort l).Perm l := by
  induction l with
  | nil => simp [ssort]
  | cons x xs ih =>
    exact (sinsert_perm x (ssort xs)).trans (ih.cons x)

theorem sinsert_pairwise (x : ℚ × ℕ × ℕ) (l : List (ℚ × ℕ × ℕ))
    (hl : l.Pairwise (fun a b => a.1 ≤ b.1)) :
    (sinsert x l).Pairwise (fun a b => a.1 ≤ b.1) := by
  induction l with
  | nil => simp [sinsert]
  | cons y ys ih =>
    rw [List.pairwise_cons] at hl
    by_cases h : x.1 ≤ y.1
    · simp only [sinsert, if_pos h, List.pairwise_cons]
      refine ⟨?_, ?_⟩
      swap
      · exact hl
      intro z hz
      rcases List.mem_cons.mp hz with hzy | hzys
      · rw [hzy]; exact h
      · exact le_trans h (hl.1 z hzys)
    · have hyx : y.1 ≤ x.1 := le_of_not_le h
      simp only [sinsert, if_neg h, List.pairwise_cons]
      refine ⟨?_, ih hl.2⟩
      intro z hz
      rcases List.mem_cons.mp ((sinsert_perm x ys).mem_iff.mp hz) with hzx | hzys
      · rw [hzx]; exact hyx
      · exact hl.1 z hzys

theorem ssort_pairwise (l : List (ℚ × ℕ × ℕ)) :
    (ssort l).Pairwise (fun a b => a.1 ≤ b.1) := by
  induction l with
  | nil => simp [ssort]
  | cons x xs ih => exact sinsert_pairwise x (ssort xs) ih

/-- Stability of `sinsert`: the restriction to any weight class is
unchanged by inserting at the stable position. -/
theorem filter_sinsert (q : ℚ) (x : ℚ × ℕ × ℕ) (l : List (ℚ × ℕ × ℕ)) :
    (sinsert x l).filter (fun e => e.1 = q) =
      (x :: l).filter (fun e => e.1 = q) := by
  induction l with
  | nil => rfl
  | cons y ys ih =>
    by_cases h : x.1 ≤ y.1
    · simp [sinsert, h]
    · have hlt : y.1 < x.1 := lt_of_not_le h
      simp only [sinsert, if_neg h]
      by_cases hy : y.1 = q
      · have hx : ¬x.1 = q := by
          rw [← hy]
          exact ne_of_gt hlt
        simp [List.filter_cons, hy, hx, ih]
      · simp [List.filter_cons, hy, ih]

/-- Stability of the sort: within each weight class the original
(enumeration) order is preserved. -/
theorem filter_ssort (q : ℚ) (l : List (ℚ × ℕ × ℕ)) :
    (ssort l).filter (fun e => e.1 = q) = l.filter (fun e => e.1 = q) := by
  induction l with
  | nil => rfl
  | cons x xs ih =>
    have h1 := filter_sinsert q x (ssort xs)
    simp only [ssort, h1, List.filter_cons, decide_eq_true_eq]
    by_cases hx : x.1 = q
    · simp [hx, ih]
    · simp [hx, ih]

/-- Every pair returned by the greedy loop is the endpoint pair of a
considered entry. -/
theorem kruskalGo_mem :
    ∀ (L : List (ℚ × ℕ × ℕ)) (C : ℕ → Finset ℕ) (p : ℕ × ℕ),
      p ∈ kruskalGo L C → ∃ e ∈ L, p = (e.2.1, e.2.2) := by
  intro L
  induction L with
  | nil =>
    intro C p hp
    simp [kruskalGo] at hp
  | cons e rest ih =>
    intro C p hp
    obtain ⟨c, u, v⟩ := e
    by_cases hne : C u ≠ C v
    · simp only [kruskalGo, if_pos hne, List.mem_cons] at hp
      rcases hp with hp | hp
      · exact ⟨(c, u, v), List.mem_cons_self _ _, hp⟩
      · obtain ⟨e', he', hpe⟩ := ih (mergeC C u v) p hp
        exact ⟨e', List.mem_cons_of_mem _ he', hpe⟩
    · simp only [kruskalGo, if_neg hne] at hp
      obtain ⟨e', he', hpe⟩ := ih C p hp
      exact ⟨e', List.mem_cons_of_mem _ he', hpe⟩

/-- Master invariant of the greedy loop: from a partition state `C`
representing both the processed edges `E₀` and the accepted edges `F₀`,
running the loop on `L` yields a final partition representing the whole
processed list and the whole accepted list, and the number of accepted
edges equals the drop in the number of classes. -/
theorem kruskalGo_spec (N : Finset ℕ) :
    ∀ (L : List (ℚ × ℕ × ℕ)) (C : ℕ → Finset ℕ) (E₀ F₀ : List (ℕ × ℕ)),
      (∀ e ∈ L, e.2.1 ∈ N ∧ e.2.2 ∈ N) →
      Partitions C N E₀ → Partitions C N F₀ →
      ∃ C' : ℕ → Finset ℕ,
        Partitions C' N (E₀ ++ L.map (fun e => (e.2.1, e.2.2))) ∧
        Partitions C' N (F₀ ++ kruskalGo L C) ∧
        (kruskalGo L C).length + (N.image C').card = (N.image C).card := by
  intro L
  induction L with
  | nil =>
    intro C E₀ F₀ _ hE hF
    exact ⟨C, by simpa using hE, by simpa [kruskalGo] using hF,
      by simp [kruskalGo]⟩
  | cons e rest ih =>
    intro C E₀ F₀ hend hE hF
    obtain ⟨c, u, v⟩ := e
    have hu : u ∈ N := (hend (c, u, v) (List.mem_cons_self _ _)).1
    have hv : v ∈ N := (hend (c, u, v) (List.mem_cons_self _ _)).2
    have hend' : ∀ e ∈ rest, e.2.1 ∈ N ∧ e.2.2 ∈ N :=
      fun e he => hend e (List.mem_cons_of_mem _ he)
    by_cases hne : C u ≠ C v
    · have hE1 : Partitions (mergeC C u v) N (E₀ ++ [(u, v)]) := by
        have h := partitions_step hE hu hv
        rwa [if_pos hne] at h
      have hF1 : Partitions (mergeC C u v) N (F₀ ++ [(u, v)]) := by
        have h := partitions_step hF hu hv
        rwa [if_pos hne] at h
      obtain ⟨C', hPE, hPF, hcount⟩ := ih (mergeC C u v) (E₀ ++ [(u, v)])
        (F₀ ++ [(u, v)]) hend' hE1 hF1
      have hgo : kruskalGo ((c, u, v) :: rest) C =
          (u, v) :: kruskalGo rest (mergeC C u v) := by
        simp [kruskalGo, hne]
      refine ⟨C', ?_, ?_, ?_⟩
      · simpa [List.append_assoc] using hPE
      · rw [hgo]
        simpa [List.append_assoc] using hPF
      · rw [hgo]
        have hcard := card_image_mergeC hE hu hv hne
        simp only [List.length_cons]
        omega
    · have hE1 : Partitions C N (E₀ ++ [(u, v)]) := by
        have h := partitions_step hE hu hv
        rwa [if_neg hne] at h
      obtain ⟨C', hPE, hPF, hcount⟩ := ih C (E₀ ++ [(u, v)]) F₀ hend' hE1 hF
      have hgo : kruskalGo ((c, u, v) :: rest) C = kruskalGo rest C := by
        simp [kruskalGo, hne]
      refine ⟨C', ?_, ?_, ?_⟩
      · simpa [List.append_assoc] using hPE
      · rw [hgo]
        exact hPF
      · rw [hgo]
        exact hcount

/-- C4: `kruskal` considers the weighted edges in ascending weight order
with ties broken by original enumeration order (the considered list is
sorted by weight, is a permutation of the enumerated list, and preserves
the enumeration order inside every weight class); it returns exactly
`|V| - k` edges where `k` is the number of connected components of `G`
(classes of `Reaches` over the edge list, by the last conjunct); and the
returned edge set is itself a spanning forest: its own component count
again satisfies `|result| + k' = |V|`, which forces acyclicity. -/
theorem kruskal_spanning_forest (G : WGraph) (w : ℕ → ℕ → ℚ)
    (hnd : G.nodes.Nodup)
    (hend : ∀ e ∈ G.edges, e.1 ∈ G.nodes ∧ e.2.1 ∈ G.nodes) :
    (ssort (kruskalLista G w)).Pairwise (fun a b => a.1 ≤ b.1) ∧
    (∀ q : ℚ, (ssort (kruskalLista G w)).filter (fun e => e.1 = q) =
      (kruskalLista G w).filter (fun e => e.1 = q)) ∧
    (ssort (kruskalLista G w)).Perm (kruskalLista G w) ∧
    (kruskal G w).length + numComponentsP G.nodes (pairsOf G) =
      G.nodes.length ∧
    (kruskal G w).length + numComponentsP G.nodes (kruskal G w) =
      G.nodes.length ∧
    (∀ v ∈ G.nodes, ∀ u : ℕ,
      u ∈ unionFold (pairsOf G) (initC G.nodes) v ↔
        u ∈ G.nodes ∧ Reaches (pairsOf G) v u) := by
  have hinit : Partitions (initC G.nodes) G.nodes.toFinset [] :=
    partitions_initC G.nodes
  have hendS : ∀ e ∈ ssort (kruskalLista G w),
      e.2.1 ∈ G.nodes.toFinset ∧ e.2.2 ∈ G.nodes.toFinset := by
    intro e he
    have he' : e ∈ kruskalLista G w :=
      (ssort_perm (kruskalLista G w)).mem_iff.mp he
    obtain ⟨ed, hed, rfl⟩ : ∃ ed ∈ G.edges, (w ed.1 ed.2.1, ed.1, ed.2.1) = e := by
      simpa [kruskalLista] using he'
    exact ⟨List.mem_toFinset.mpr (hend ed hed).1,
      List.mem_toFinset.mpr (hend ed hed).2⟩
  obtain ⟨C', hPE, hPF, hcount⟩ := kruskalGo_spec G.nodes.toFinset
    (ssort (kruskalLista G w)) (initC G.nodes) [] [] hendS hinit hinit
  have hPE' : Partitions C' G.nodes.toFinset
      ((ssort (kruskalLista G w)).map (fun e => (e.2.1, e.2.2))) := by
    simpa using hPE
  have hPF' : Partitions C' G.nodes.toFinset
      (kruskalGo (ssort (kruskalLista G w)) (initC G.nodes)) := by
    simpa using hPF
  have hinitcard :
      (G.nodes.toFinset.image (initC G.nodes)).card = G.nodes.length := by
    rw [card_image_initC, List.toFinset_card_of_nodup hnd]
  have hcomp : (kruskalLista G w).map (fun e => (e.2.1, e.2.2)) = pairsOf G := by
    simp only [kruskalLista, pairsOf, List.map_map]
    rfl
  have hmapeq : ∀ p : ℕ × ℕ,
      p ∈ (ssort (kruskalLista G w)).map (fun e => (e.2.1, e.2.2)) ↔
        p ∈ pairsOf G := by
    intro p
    rw [← hcomp]
    exact ((ssort_perm (kruskalLista G w)).map _).mem_iff
  have hendP : ∀ p ∈ pairsOf G,
      p.1 ∈ G.nodes.toFinset ∧ p.2 ∈ G.nodes.toFinset := by
    intro p hp
    obtain ⟨ed, hed, rfl⟩ : ∃ ed ∈ G.edges, (ed.1, ed.2.1) = p := by
      simpa [pairsOf] using hp
    exact ⟨List.mem_toFinset.mpr (hend ed hed).1,
      List.mem_toFinset.mpr (hend ed hed).2⟩
  have hUF : Partitions (unionFold (pairsOf G) (initC G.nodes))
      G.nodes.toFinset (pairsOf G) := by
    have h := unionFold_partitions (pairsOf G) (initC G.nodes)
      G.nodes.toFinset [] hinit hendP
    simpa using h
  have hagree1 : ∀ v ∈ G.nodes.toFinset,
      C' v = unionFold (pairsOf G) (initC G.nodes) v :=
    fun v hv => partitions_eq_on hPE' hUF hmapeq hv
  have himg1 : G.nodes.toFinset.image C' =
      G.nodes.toFinset.image (unionFold (pairsOf G) (initC G.nodes)) :=
    Finset.image_congr (fun v hv => hagree1 v (by simpa using hv))
  have hendR : ∀ p ∈ kruskalGo (ssort (kruskalLista G w)) (initC G.nodes),
      p.1 ∈ G.nodes.toFinset ∧ p.2 ∈ G.nodes.toFinset := by
    intro p hp
    obtain ⟨e, he, rfl⟩ := kruskalGo_mem _ _ p hp
    exact hendS e he
  have hUF2 : Partitions
      (unionFold (kruskalGo (ssort (kruskalLista G w)) (initC G.nodes))
        (initC G.nodes)) G.nodes.toFinset
      (kruskalGo (ssort (kruskalLista G w)) (initC G.nodes)) := by
    have h := unionFold_partitions
      (kruskalGo (ssort (kruskalLista G w)) (initC G.nodes)) (initC G.nodes)
      G.nodes.toFinset [] hinit hendR
    simpa using h
  have hagree2 : ∀ v ∈ G.nodes.toFinset,
      C' v = unionFold (kruskalGo (ssort (kruskalLista G w)) (initC G.nodes))
        (initC G.nodes) v :=
    fun v hv => partitions_eq_on hPF' hUF2 (fun p => Iff.rfl) hv
  have himg2 : G.nodes.toFinset.image C' =
      G.nodes.toFinset.image
        (unionFold (kruskalGo (ssort (kruskalLista G w)) (initC G.nodes))
          (initC G.nodes)) :=
    Finset.image_congr (fun v hv => hagree2 v (by simpa using hv))
  refine ⟨ssort_pairwise _, fun q => filter_ssort q _, ssort_perm _, ?_, ?_, ?_⟩
  · show (kruskalGo (ssort (kruskalLista G w)) (initC G.nodes)).length +
      numComponentsP G.nodes (pairsOf G) = G.nodes.length
    rw [numComponentsP, ← himg1]
    omega
  · show (kruskalGo (ssort (kruskalLista G w)) (initC G.nodes)).length +
      numComponentsP G.nodes
        (kruskalGo (ssort (kruskalLista G w)) (initC G.nodes)) =
      G.nodes.length
    rw [numComponentsP, ← himg2]
    omega
  · intro v hv u
    have h := hUF v (List.mem_toFinset.mpr hv) u
    rw [h, List.mem_toFinset]

/-- Test graph for C4: five nodes, two components (a triangle with a
pendant edge, plus an isolated pair), with a duplicate-weight tie. -/
def Gkr : WGraph :=
  { nodes := [0, 1, 2, 3, 4],
    coordX := fun _ => 0,
    coordY := fun _ => 0,
    edges := [(0, 1, ⟨some 10, none, none, none⟩),
              (1, 2, ⟨some 10, none, none, none⟩),
              (0, 2, ⟨some 30, none, none, none⟩),
              (3, 4, ⟨some 7, none, none, none⟩)] }

/-- The `shortest` weight policy on `Gkr` as the total function kruskal is
run with (every edge of `Gkr` has a length). -/
def wKr (u v : ℕ) : ℚ := ((mas_corto Gkr u v).toOption).getD 0

/-- C4 witness: `Gkr` has nodup nodes and well-formed edges; the theorem
applies, giving `|result| + 2 = 5` among the rest. -/
theorem kruskal_spanning_forest_witness :
    (ssort (kruskalLista Gkr wKr)).Pairwise
      (fun a b => a.1 ≤ b.1) ∧
    (∀ q : ℚ, (ssort (kruskalLista Gkr wKr)).filter
        (fun e => e.1 = q) =
      (kruskalLista Gkr wKr).filter (fun e => e.1 = q)) ∧
    (ssort (kruskalLista Gkr wKr)).Perm
      (kruskalLista Gkr wKr) ∧
    (kruskal Gkr wKr).length +
      numComponentsP Gkr.nodes (pairsOf Gkr) = Gkr.nodes.length ∧
    (kruskal Gkr wKr).length +
      numComponentsP Gkr.nodes (kruskal Gkr wKr) =
      Gkr.nodes.length ∧
    (∀ v ∈ Gkr.nodes, ∀ u : ℕ,
      u ∈ unionFold (pairsOf Gkr) (initC Gkr.nodes) v ↔
        u ∈ Gkr.nodes ∧ Reaches (pairsOf Gkr) v u) :=
  kruskal_spanning_forest Gkr wKr (by decide) (by decide)

/-- The neighbour-relaxation loop of `prim`
(`for x in G.neighbors(v): if x in en_Q: ...`): for each still-unprocessed
neighbour whose candidate cost improves, update cost and parent and push.
The cost dict over `G.nodes` is modelled as a total function (it is only
ever read at nodes); the parent dict keeps Python dict semantics. -/
def primRelax (w : ℕ → ℕ → ℚ) (v : ℕ) :
    List ℕ → Finset ℕ → (ℕ → ℚ) → List (ℕ × Option ℕ) → List (ℚ × ℕ × ℕ) →
      ℕ → ((ℕ → ℚ) × List (ℕ × Option ℕ) × List (ℚ × ℕ × ℕ) × ℕ)
  | [], _, coste, padre, Q, cnt => (coste, padre, Q, cnt)
  | x :: xs, enQ, coste, padre, Q, cnt =>
    if x ∈ enQ then
      if w v x < coste x then
        primRelax w v xs enQ (fun y => if y = x then w v x else coste y)
          (dset padre x (some v)) (Q ++ [(w v x, cnt, x)]) (cnt + 1)
      else primRelax w v xs enQ coste padre Q cnt
    else primRelax w v xs enQ coste padre Q cnt

/-- The main `while Q:` loop of `prim`, with fuel (each iteration pops one
entry; pushes only happen when a node leaves `en_Q`, so the wrapper's fuel
is provably sufficient — see `primLoop_spec`). -/
def primLoop (G : WGraph) (w : ℕ → ℕ → ℚ) :
    ℕ → List (ℚ × ℕ × ℕ) → Finset ℕ → (ℕ → ℚ) → List (ℕ × Option ℕ) → ℕ →
      Option (List (ℕ × Option ℕ))
  | _, [], _, _, padre, _ => some padre
  | 0, _ :: _, _, _, _, _ => none
  | fuel + 1, q0 :: qrest, enQ, coste, padre, cnt =>
    let pm := popMin q0 qrest
    let v := pm.1.2.2
    if v ∈ enQ then
      match primRelax w v (neighborsU G v) (enQ.erase v) coste padre pm.2 cnt with
      | (coste', padre', Q', cnt') =>
        primLoop G w fuel Q' (enQ.erase v) coste' padre' cnt'
    else primLoop G w fuel pm.2 enQ coste padre cnt

/-- Fuel that provably suffices for `primLoop` (every iteration pops one
entry; a processing iteration pushes at most `|neighbours| ≤ 2|E|` new
entries while shrinking `en_Q`). -/
def primFuel (G : WGraph) : ℕ :=
  G.nodes.length * (2 * G.edges.length + 1) + G.nodes.length

/-- `prim`: minimum-spanning-tree computation.  All nodes are pushed with
cost `INFTY` and counters `0..n-1`, `en_Q = set(G.nodes)`, then the lazy
loop runs; the parent dict (initialised to `None` everywhere) is the
result. -/
def prim (G : WGraph) (w : ℕ → ℕ → ℚ) : Option (List (ℕ × Option ℕ)) :=
  primLoop G w (primFuel G) (G.nodes.enum.map (fun p => (INFTY, p.1, p.2)))
    G.nodes.toFinset (fun _ => INFTY) (dinit (none : Option ℕ) G.nodes)
    G.nodes.length

/-- Iterate the parent map `k` times from `x` (`none` when a lookup fails
or hits a root before `k` steps are done). -/
def padreIter (padre : List (ℕ × Option ℕ)) : ℕ → ℕ → Option ℕ
  | 0, x => some x
  | k + 1, x =>
    match dlookup padre x with
    | some (some p) => padreIter padre k p
    | _ => none

theorem dlookup_mem_dkeys {α : Type} (d : List (ℕ × α)) (k : ℕ) :
    (dlookup d k).isSome ↔ k ∈ dkeys d := by
  induction d with
  | nil => simp [dlookup, dkeys]
  | cons e t ih =>
    obtain ⟨k', a⟩ := e
    by_cases h : k' = k
    · subst h
      simp [dlookup, dkeys]
    · have h2 : ¬k = k' := fun he => h he.symm
      simp [dlookup, dkeys, h, h2, ih]

theorem dkeys_dset_mem {α : Type} (d : List (ℕ × α)) (k : ℕ) (a : α)
    (h : k ∈ dkeys d) : dkeys (dset d k a) = dkeys d := by
  induction d with
  | nil => simp [dkeys] at h
  | cons e t ih =>
    obtain ⟨k', b⟩ := e
    by_cases hk : k' = k
    · subst hk
      simp [dset, dkeys]
    · simp only [dkeys, List.map_cons] at h
      rcases List.mem_cons.mp h with h1 | h1
      · exact absurd h1.symm hk
      · simp only [dset, if_neg hk]
        simp only [dkeys, List.map_cons] at ih ⊢
        rw [ih h1]

theorem dkeys_dset_not_mem {α : Type} (d : List (ℕ × α)) (k : ℕ) (a : α)
    (h : k ∉ dkeys d) : dkeys (dset d k a) = dkeys d ++ [k] := by
  induction d with
  | nil => simp [dset, dkeys]
  | cons e t ih =>
    obtain ⟨k', b⟩ := e
    simp only [dkeys, List.map_cons, List.mem_cons] at h
    push_neg at h
    have hk : k' ≠ k := fun he => h.1 he.symm
    have ih2 := ih (by simpa [dkeys] using h.2)
    simp only [dset, if_neg hk]
    simp only [dkeys, List.map_cons] at ih2 ⊢
    rw [ih2, List.cons_append]

theorem dkeys_dinit {α : Type} (c : α) (l : List ℕ) (hnd : l.Nodup) :
    dkeys (dinit c l) = l := by
  have main : ∀ (l : List ℕ) (d : List (ℕ × α)), l.Nodup →
      (∀ x ∈ l, x ∉ dkeys d) →
      dkeys (l.foldl (fun acc v => dset acc v c) d) = dkeys d ++ l := by
    intro l
    induction l with
    | nil => intro d _ _; simp
    | cons h t ih =>
      intro d hnd hdisj
      rw [List.nodup_cons] at hnd
      have hstep : dkeys (dset d h c) = dkeys d ++ [h] :=
        dkeys_dset_not_mem d h c (hdisj h (List.mem_cons_self _ _))
      have hrec := ih (dset d h c) hnd.2 (by
        intro x hx
        rw [hstep]
        simp only [List.mem_append, List.mem_singleton]
        push_neg
        exact ⟨hdisj x (List.mem_cons_of_mem _ hx),
          fun he => hnd.1 (he ▸ hx)⟩)
      simp only [List.foldl_cons, hrec, hstep, List.append_assoc,
        List.singleton_append]
  simpa [dinit] using main l [] hnd (by simp [dkeys])

theorem mem_enumFrom_snd {l : List ℕ} :
    ∀ {n : ℕ} {e : ℕ × ℕ}, e ∈ List.enumFrom n l → e.2 ∈ l := by
  induction l with
  | nil => intro n e he; simp [List.enumFrom] at he
  | cons h t ih =>
    intro n e he
    rcases List.mem_cons.mp he with h1 | h1
    · rw [h1]
      exact List.mem_cons_self _ _
    · exact List.mem_cons_of_mem _ (ih h1)

theorem exists_mem_enumFrom {l : List ℕ} :
    ∀ {x : ℕ}, x ∈ l → ∀ (n : ℕ), ∃ i, (i, x) ∈ List.enumFrom n l := by
  induction l with
  | nil => intro x hx; simp at hx
  | cons h t ih =>
    intro x hx n
    rcases List.mem_cons.mp hx with h1 | h1
    · exact ⟨n, by simp [List.enumFrom, h1]⟩
    · obtain ⟨i, hi⟩ := ih h1 (n + 1)
      exact ⟨i, List.mem_cons_of_mem _ hi⟩

theorem neighborsU_length_le (G : WGraph) (v : ℕ) :
    (neighborsU G v).length ≤ 2 * G.edges.length := by
  unfold neighborsU
  rw [List.length_append]
  have h1 := List.length_filterMap_le
    (fun e : ℕ × ℕ × EdgeData => if e.1 = v then some e.2.1 else none) G.edges
  have h2 := List.length_filterMap_le
    (fun e : ℕ × ℕ × EdgeData => if e.2.1 = v then some e.1 else none) G.edges
  omega

theorem mem_neighborsU (G : WGraph) (v x : ℕ) :
    x ∈ neighborsU G v ↔ adjP (pairsOf G) v x := by
  unfold neighborsU adjP pairsOf
  simp only [List.mem_append, List.mem_filterMap, List.mem_map]
  constructor
  · rintro (⟨e, he, hx⟩ | ⟨e, he, hx⟩)
    · by_cases h : e.1 = v
      · simp only [h, if_pos rfl] at hx
        exact Or.inl ⟨e, he, by rw [← Option.some_inj.mp hx, h]⟩
      · simp [h] at hx
    · by_cases h : e.2.1 = v
      · simp only [h, if_pos rfl] at hx
        exact Or.inr ⟨e, he, by rw [← Option.some_inj.mp hx, h]⟩
      · simp [h] at hx
  · rintro (⟨e, he, hx⟩ | ⟨e, he, hx⟩)
    · refine Or.inl ⟨e, he, ?_⟩
      have h1 : e.1 = v := by
        have := congrArg Prod.fst hx
        simpa using this
      have h2 : e.2.1 = x := by
        have := congrArg Prod.snd hx
        simpa using this
      simp [h1, h2]
    · refine Or.inr ⟨e, he, ?_⟩
      have h1 : e.1 = x := by
        have := congrArg Prod.fst hx
        simpa using this
      have h2 : e.2.1 = v := by
        have := congrArg Prod.snd hx
        simpa using this
      simp [h1, h2]

theorem tupLt_true_le {a b : ℚ × ℕ × ℕ} (h : tupLt a b = true) : a.1 ≤ b.1 := by
  unfold tupLt at h
  simp only [Bool.or_eq_true, Bool.and_eq_true, decide_eq_true_eq] at h
  rcases h with h | ⟨h, _⟩
  · exact le_of_lt h
  · exact le_of_eq h

theorem tupLt_false_le {a b : ℚ × ℕ × ℕ} (h : tupLt a b = false) : b.1 ≤ a.1 := by
  unfold tupLt at h
  simp only [Bool.or_eq_false_iff, Bool.and_eq_false_iff, decide_eq_false_iff_not] at h
  exact le_of_not_lt h.1

theorem popMin_perm (x : ℚ × ℕ × ℕ) (l : List (ℚ × ℕ × ℕ)) :
    ((popMin x l).1 :: (popMin x l).2).Perm (x :: l) := by
  induction l generalizing x with
  | nil => simp [popMin]
  | cons y ys ih =>
    by_cases h : tupLt y x
    · simp only [popMin, h, if_true]
      exact (List.Perm.swap x (popMin y ys).1 (popMin y ys).2).trans
        ((ih y).cons x)
    · simp only [popMin, h, if_false, Bool.false_eq_true]
      exact ((List.Perm.swap y (popMin x ys).1 (popMin x ys).2).trans
        ((ih x).cons y)).trans (List.Perm.swap x y ys)

theorem popMin_fst_le (x : ℚ × ℕ × ℕ) (l : List (ℚ × ℕ × ℕ)) :
    ∀ e ∈ x :: l, (popMin x l).1.1 ≤ e.1 := by
  induction l generalizing x with
  | nil =>
    intro e he
    rcases List.mem_cons.mp he with h | h
    · rw [h]
      simp [popMin]
    · simp at h
  | cons y ys ih =>
    intro e he
    by_cases h : tupLt y x
    · simp only [popMin, h, if_true]
      rcases List.mem_cons.mp he with h1 | h1
      · calc (popMin y ys).1.1 ≤ y.1 := ih y y (List.mem_cons_self _ _)
          _ ≤ x.1 := tupLt_true_le h
          _ = e.1 := by rw [h1]
      · exact ih y e h1
    · simp only [popMin, h, if_false, Bool.false_eq_true]
      rcases List.mem_cons.mp he with h1 | h1
      · rw [h1]
        exact ih x x (List.mem_cons_self _ _)
      · rcases List.mem_cons.mp h1 with h2 | h2
        · calc (popMin x ys).1.1 ≤ x.1 := ih x x (List.mem_cons_self _ _)
            _ ≤ y.1 := tupLt_false_le (by simpa using h)
            _ = e.1 := by rw [h2]
        · exact ih x e (List.mem_cons_of_mem _ h2)

theorem indexOf_append_left {l l' : List ℕ} {a : ℕ} (h : a ∈ l) :
    (l ++ l').indexOf a = l.indexOf a := by
  induction l with
  | nil => simp at h
  | cons b t ih =>
    by_cases hb : b = a
    · subst hb
      simp [List.indexOf_cons_self]
    · have hne : a ≠ b := fun he => hb he.symm
      rcases List.mem_cons.mp h with h1 | h1
      · exact absurd h1.symm hb
      · rw [List.cons_append, List.indexOf_cons_ne _ hb,
          List.indexOf_cons_ne _ hb, ih h1]

theorem indexOf_append_right {l : List ℕ} {a : ℕ} (h : a ∉ l) :
    (l ++ [a]).indexOf a = l.length := by
  induction l with
  | nil => simp [List.indexOf_cons_self]
  | cons b t ih =>
    have hb : ¬b = a := fun he => h (by rw [he]; exact List.mem_cons_self _ _)
    have h2 : a ∉ t := fun ht => h (List.mem_cons_of_mem _ ht)
    rw [List.cons_append, List.indexOf_cons_ne _ hb, ih h2, List.length_cons]

/-- The loop invariant of `prim`.  `ord` is the list of processed nodes in
processing order (ghost data of the proof): `en_Q` is the complement of
`ord` inside the node set; every queue entry's cost dominates the current
cost of its node and every `en_Q` member has an entry at its exact current
cost; a node's parent is `None` exactly while its cost is still `INFTY`;
recorded parents are processed graph-neighbours that were processed
earlier; every `en_Q` node adjacent to a processed node has a finite cost;
and a processed root precedes every other processed node of its component. -/
structure PInv (G : WGraph) (Q : List (ℚ × ℕ × ℕ)) (enQ : Finset ℕ)
    (coste : ℕ → ℚ) (padre : List (ℕ × Option ℕ)) (ord : List ℕ) : Prop where
  keys : dkeys padre = G.nodes
  enq_sub : ∀ x ∈ enQ, x ∈ G.nodes
  ord_nodup : ord.Nodup
  ord_sub : ∀ x ∈ ord, x ∈ G.nodes
  part : ∀ x ∈ G.nodes, x ∈ enQ ↔ x ∉ ord
  qnodes : ∀ e ∈ Q, e.2.2 ∈ G.nodes
  qcost_le : ∀ e ∈ Q, coste e.2.2 ≤ e.1
  qcost_bound : ∀ e ∈ Q, e.1 ≤ INFTY
  cost_bound : ∀ x ∈ G.nodes, coste x ≤ INFTY
  has_entry : ∀ x ∈ enQ, ∃ c i, (c, i, x) ∈ Q ∧ c = coste x
  pnone_iff : ∀ x ∈ G.nodes, (dlookup padre x = some none ↔ coste x = INFTY)
  pprops : ∀ x ∈ G.nodes, ∀ p, dlookup padre x = some (some p) →
    adjP (pairsOf G) p x ∧ p ∈ ord ∧
      (x ∈ ord → ord.indexOf p < ord.indexOf x)
  crossing : ∀ p ∈ ord, ∀ y ∈ enQ, adjP (pairsOf G) p y → coste y < INFTY
  root_first : ∀ x ∈ ord, dlookup padre x = some none →
    ∀ y ∈ ord, y ≠ x → Reaches (pairsOf G) x y →
      ord.indexOf x < ord.indexOf y

/-- Behaviour of `primRelax` on all components of the state.  `(b)` is the
central clause: at every node either both parent entry and cost are
untouched, or the node is a still-unprocessed neighbour of `v` whose
parent became `v` and whose cost became finite. -/
theorem primRelax_spec (G : WGraph) (w : ℕ → ℕ → ℚ) (v : ℕ) :
    ∀ (xs : List ℕ) (enQ : Finset ℕ) (coste : ℕ → ℚ)
      (padre : List (ℕ × Option ℕ)) (Q : List (ℚ × ℕ × ℕ)) (cnt : ℕ),
      (∀ x ∈ xs, adjP (pairsOf G) v x) →
      (∀ x ∈ xs, w v x < INFTY) →
      (∀ x ∈ enQ, x ∈ dkeys padre) →
      (∀ y, (primRelax w v xs enQ coste padre Q cnt).1 y ≤ coste y) ∧
      (∀ y, (dlookup (primRelax w v xs enQ coste padre Q cnt).2.1 y =
          dlookup padre y ∧
          (primRelax w v xs enQ coste padre Q cnt).1 y = coste y) ∨
        (y ∈ enQ ∧ adjP (pairsOf G) v y ∧
          dlookup (primRelax w v xs enQ coste padre Q cnt).2.1 y =
            some (some v) ∧
          (primRelax w v xs enQ coste padre Q cnt).1 y < INFTY)) ∧
      dkeys (primRelax w v xs enQ coste padre Q cnt).2.1 = dkeys padre ∧
      (∀ e ∈ Q, e ∈ (primRelax w v xs enQ coste padre Q cnt).2.2.1) ∧
      (∀ e ∈ (primRelax w v xs enQ coste padre Q cnt).2.2.1, e ∈ Q ∨
        (e.2.2 ∈ enQ ∧
          (primRelax w v xs enQ coste padre Q cnt).1 e.2.2 ≤ e.1 ∧
          e.1 < INFTY)) ∧
      (∀ x ∈ enQ, (∃ c i, (c, i, x) ∈ Q ∧ c = coste x) →
        ∃ c i, (c, i, x) ∈ (primRelax w v xs enQ coste padre Q cnt).2.2.1 ∧
          c = (primRelax w v xs enQ coste padre Q cnt).1 x) ∧
      (∀ x ∈ xs, x ∈ enQ →
        (primRelax w v xs enQ coste padre Q cnt).1 x < INFTY) ∧
      (primRelax w v xs enQ coste padre Q cnt).2.2.1.length ≤
        Q.length + xs.length := by
  intro xs
  induction xs with
  | nil =>
    intro enQ coste padre Q cnt _ _ _
    refine ⟨fun y => le_refl _, fun y => Or.inl ⟨rfl, rfl⟩, rfl,
      fun e he => he, fun e he => Or.inl he, ?_, ?_, ?_⟩
    · intro x _ h
      simpa [primRelax] using h
    · intro x hx
      simp at hx
    · simp [primRelax]
  | cons x xs ih =>
    intro enQ coste padre Q cnt hadj hwlt hkeys
    have hadj' : ∀ z ∈ xs, adjP (pairsOf G) v z :=
      fun z hz => hadj z (List.mem_cons_of_mem _ hz)
    have hwlt' : ∀ z ∈ xs, w v z < INFTY :=
      fun z hz => hwlt z (List.mem_cons_of_mem _ hz)
    by_cases hx : x ∈ enQ
    · by_cases himp : w v x < coste x
      · -- update step
        have hstep : primRelax w v (x :: xs) enQ coste padre Q cnt =
            primRelax w v xs enQ (fun y => if y = x then w v x else coste y)
              (dset padre x (some v)) (Q ++ [(w v x, cnt, x)]) (cnt + 1) := by
          simp [primRelax, hx, himp]
        have hkeys1 : ∀ z ∈ enQ, z ∈ dkeys (dset padre x (some v)) := by
          intro z hz
          rw [dkeys_dset_mem padre x (some v) (hkeys x hx)]
          exact hkeys z hz
        obtain ⟨ra, rb, rc, rd, re, rf, rg, rh⟩ := ih enQ
          (fun y => if y = x then w v x else coste y) (dset padre x (some v))
          (Q ++ [(w v x, cnt, x)]) (cnt + 1) hadj' hwlt' hkeys1
        rw [hstep]
        have hxadj : adjP (pairsOf G) v x := hadj x (List.mem_cons_self _ _)
        have hxw : w v x < INFTY := hwlt x (List.mem_cons_self _ _)
        refine ⟨?_, ?_, ?_, ?_, ?_, ?_, ?_, ?_⟩
        · intro y
          refine le_trans (ra y) ?_
          by_cases hy : y = x
          · subst hy
            simp only [if_pos rfl]
            exact le_of_lt himp
          · simp [hy]
        · intro y
          rcases rb y with ⟨hb1, hb2⟩ | hb
          · by_cases hy : y = x
            · subst hy
              refine Or.inr ⟨hx, hxadj, ?_, ?_⟩
              · rw [hb1, dlookup_dset]
                simp
              · rw [hb2]
                simpa using hxw
            · refine Or.inl ⟨?_, ?_⟩
              · rw [hb1, dlookup_dset]
                have : ¬x = y := fun he => hy he.symm
                simp [this]
              · rw [hb2]
                simp [hy]
          · exact Or.inr hb
        · rw [rc, dkeys_dset_mem padre x (some v) (hkeys x hx)]
        · intro e he
          exact rd e (List.mem_append.mpr (Or.inl he))
        · intro e he
          rcases re e he with he' | he'
          · rcases List.mem_append.mp he' with h1 | h1
            · exact Or.inl h1
            · simp only [List.mem_singleton] at h1
              subst h1
              refine Or.inr ⟨hx, ?_, hxw⟩
              refine le_trans (ra x) ?_
              simp
          · exact Or.inr he'
        · intro z hz hpre
          by_cases hzx : z = x
          · subst hzx
            refine rf z hz ⟨w v z, cnt, ?_, ?_⟩
            · exact List.mem_append.mpr (Or.inr (by simp))
            · simp
          · obtain ⟨c, i, hci, hcc⟩ := hpre
            refine rf z hz ⟨c, i, List.mem_append.mpr (Or.inl hci), ?_⟩
            rw [hcc]
            simp [hzx]
        · intro z hz hzQ
          rcases List.mem_cons.mp hz with h1 | h1
          · subst h1
            refine lt_of_le_of_lt (ra z) ?_
            simpa using hxw
          · exact rg z h1 hzQ
        · simp only [List.length_append, List.length_singleton] at rh
          simp only [List.length_cons]
          omega
      · -- no improvement
        have hstep : primRelax w v (x :: xs) enQ coste padre Q cnt =
            primRelax w v xs enQ coste padre Q cnt := by
          simp [primRelax, hx, himp]
        obtain ⟨ra, rb, rc, rd, re, rf, rg, rh⟩ := ih enQ coste padre Q cnt
          hadj' hwlt' hkeys
        rw [hstep]
        refine ⟨ra, rb, rc, rd, re, rf, ?_, le_trans rh (by simp)⟩
        intro z hz hzQ
        rcases List.mem_cons.mp hz with h1 | h1
        · subst h1
          have hle : coste z ≤ w v z := le_of_not_lt himp
          exact lt_of_le_of_lt (ra z)
            (lt_of_le_of_lt hle (hwlt z (List.mem_cons_self _ _)))
        · exact rg z h1 hzQ
    · -- x not in en_Q
      have hstep : primRelax w v (x :: xs) enQ coste padre Q cnt =
          primRelax w v xs enQ coste padre Q cnt := by
        simp [primRelax, hx]
      obtain ⟨ra, rb, rc, rd, re, rf, rg, rh⟩ := ih enQ coste padre Q cnt
        hadj' hwlt' hkeys
      rw [hstep]
      refine ⟨ra, rb, rc, rd, re, rf, ?_, le_trans rh (by simp)⟩
      intro z hz hzQ
      rcases List.mem_cons.mp hz with h1 | h1
      · subst h1
        exact absurd hzQ hx
      · exact rg z h1 hzQ

/-- The loop of `prim` terminates within the stated fuel and maintains the
invariant; at exhaustion of the queue every node has been processed. -/
theorem primLoop_spec (G : WGraph) (w : ℕ → ℕ → ℚ)
    (hend : ∀ e ∈ G.edges, e.1 ∈ G.nodes ∧ e.2.1 ∈ G.nodes)
    (hw : ∀ e ∈ G.edges, w e.1 e.2.1 < INFTY ∧ w e.2.1 e.1 < INFTY) :
    ∀ (fuel : ℕ) (Q : List (ℚ × ℕ × ℕ)) (enQ : Finset ℕ) (coste : ℕ → ℚ)
      (padre : List (ℕ × Option ℕ)) (cnt : ℕ) (ord : List ℕ),
      PInv G Q enQ coste padre ord →
      enQ.card * (2 * G.edges.length + 1) + Q.length ≤ fuel →
      ∃ (costeF : ℕ → ℚ) (padreF : List (ℕ × Option ℕ)) (ordF : List ℕ),
        primLoop G w fuel Q enQ coste padre cnt = some padreF ∧
        PInv G [] ∅ costeF padreF ordF := by
  intro fuel
  induction fuel using Nat.strong_induction_on with
  | _ fuel ihf =>
    intro Q enQ coste padre cnt ord hI hfuel
    cases Q with
    | nil =>
      have henq : enQ = ∅ := by
        rw [Finset.eq_empty_iff_forall_not_mem]
        intro x hx
        obtain ⟨c, i, hci, _⟩ := hI.has_entry x hx
        simp at hci
      refine ⟨coste, padre, ord, ?_, henq ▸ hI⟩
      cases fuel <;> rfl
    | cons q0 qrest =>
      cases fuel with
      | zero =>
        exfalso
        simp only [List.length_cons] at hfuel
        omega
      | succ f =>
        have hperm : ((popMin q0 qrest).1 :: (popMin q0 qrest).2).Perm
            (q0 :: qrest) := popMin_perm q0 qrest
        set m := (popMin q0 qrest).1 with hm
        set R := (popMin q0 qrest).2 with hR
        set v := m.2.2 with hv
        have hlenR : R.length = qrest.length := by
          have h := hperm.length_eq
          simp only [List.length_cons] at h
          omega
        have hmQ : m ∈ q0 :: qrest := hperm.mem_iff.mp (List.mem_cons_self m R)
        have hmem_of_R : ∀ e ∈ R, e ∈ q0 :: qrest :=
          fun e he => hperm.mem_iff.mp (List.mem_cons_of_mem _ he)
        have hRentry : ∀ (c : ℚ) (i x : ℕ), (c, i, x) ∈ q0 :: qrest → x ≠ v →
            (c, i, x) ∈ R := by
          intro c i x hmem hne
          rcases List.mem_cons.mp (hperm.mem_iff.mpr hmem) with h1 | h1
          · exfalso
            apply hne
            have := congrArg (fun e : ℚ × ℕ × ℕ => e.2.2) h1
            simpa using this
          · exact h1
        by_cases hvm : v ∈ enQ
        · -- processing step
          have hvN : v ∈ G.nodes := hI.enq_sub v hvm
          have hvord : v ∉ ord := (hI.part v hvN).mp hvm
          have hxadj : ∀ x ∈ neighborsU G v, adjP (pairsOf G) v x :=
            fun x hx => (mem_neighborsU G v x).mp hx
          have hwxs : ∀ x ∈ neighborsU G v, w v x < INFTY := by
            intro x hx
            rcases (mem_neighborsU G v x).mp hx with hm' | hm'
            · obtain ⟨e, he, hpe⟩ := List.mem_map.mp hm'
              have h1 : e.1 = v := by
                have := congrArg Prod.fst hpe
                simpa using this
              have h2 : e.2.1 = x := by
                have := congrArg Prod.snd hpe
                simpa using this
              have h3 := (hw e he).1
              rwa [h1, h2] at h3
            · obtain ⟨e, he, hpe⟩ := List.mem_map.mp hm'
              have h1 : e.1 = x := by
                have := congrArg Prod.fst hpe
                simpa using this
              have h2 : e.2.1 = v := by
                have := congrArg Prod.snd hpe
                simpa using this
              have h3 := (hw e he).2
              rwa [h1, h2] at h3
          have hkeys' : ∀ x ∈ enQ.erase v, x ∈ dkeys padre := by
            intro x hx
            rw [hI.keys]
            exact hI.enq_sub x (Finset.mem_of_mem_erase hx)
          obtain ⟨ra, rb, rc, rd, re, rf, rg, rh⟩ :=
            primRelax_spec G w v (neighborsU G v) (enQ.erase v) coste padre R
              cnt hxadj hwxs hkeys'
          set r := primRelax w v (neighborsU G v) (enQ.erase v) coste padre R
            cnt with hrdef
          have hstep : primLoop G w (f + 1) (q0 :: qrest) enQ coste padre cnt =
              primLoop G w f r.2.2.1 (enQ.erase v) r.1 r.2.1 r.2.2.2 := by
            show (if v ∈ enQ then _ else _) = _
            rw [if_pos hvm]
          have hidx_v : (ord ++ [v]).indexOf v = ord.length :=
            indexOf_append_right hvord
          have hI' : PInv G r.2.2.1 (enQ.erase v) r.1 r.2.1 (ord ++ [v]) := by
            refine ⟨?_, ?_, ?_, ?_, ?_, ?_, ?_, ?_, ?_, ?_, ?_, ?_, ?_, ?_⟩
            · rw [rc, hI.keys]
            · exact fun x hx => hI.enq_sub x (Finset.mem_of_mem_erase hx)
            · refine List.nodup_append.mpr
                ⟨hI.ord_nodup, List.nodup_singleton v, ?_⟩
              intro a ha hav
              rw [List.mem_singleton] at hav
              exact hvord (hav ▸ ha)
            · intro x hx
              rcases List.mem_append.mp hx with h1 | h1
              · exact hI.ord_sub x h1
              · rw [List.mem_singleton.mp h1]
                exact hvN
            · intro x hxN
              by_cases hxv : x = v
              · subst hxv
                simp [List.mem_append]
              · rw [Finset.mem_erase]
                simp only [List.mem_append, List.mem_singleton]
                rw [hI.part x hxN]
                constructor
                · rintro ⟨_, h2⟩ h3
                  rcases h3 with h3 | h3
                  · exact h2 h3
                  · exact hxv h3
                · intro h1
                  push_neg at h1
                  exact ⟨hxv, h1.1⟩
            · intro e he
              rcases re e he with h1 | h1
              · exact hI.qnodes e (hmem_of_R e h1)
              · exact hI.enq_sub e.2.2 (Finset.mem_of_mem_erase h1.1)
            · intro e he
              rcases re e he with h1 | h1
              · exact le_trans (ra e.2.2) (hI.qcost_le e (hmem_of_R e h1))
              · exact h1.2.1
            · intro e he
              rcases re e he with h1 | h1
              · exact hI.qcost_bound e (hmem_of_R e h1)
              · exact le_of_lt h1.2.2
            · exact fun x hxN => le_trans (ra x) (hI.cost_bound x hxN)
            · intro x hx
              have hx0 : x ∈ enQ := Finset.mem_of_mem_erase hx
              have hxv : x ≠ v := (Finset.mem_erase.mp hx).1
              obtain ⟨c, i, hci, hcc⟩ := hI.has_entry x hx0
              exact rf x hx ⟨c, i, hRentry c i x hci hxv, hcc⟩
            · intro x hxN
              rcases rb x with ⟨hb1, hb2⟩ | hb
              · rw [hb1, hb2]
                exact hI.pnone_iff x hxN
              · refine ⟨fun h => ?_, fun h => ?_⟩
                · rw [hb.2.2.1] at h
                  simp at h
                · exact absurd h (ne_of_lt hb.2.2.2)
            · intro x hxN p hp
              rcases rb x with ⟨hb1, hb2⟩ | hb
              · rw [hb1] at hp
                obtain ⟨hadj, hpord, hbefore⟩ := hI.pprops x hxN p hp
                refine ⟨hadj, List.mem_append.mpr (Or.inl hpord), ?_⟩
                intro hxord'
                rcases List.mem_append.mp hxord' with h1 | h1
                · rw [indexOf_append_left hpord, indexOf_append_left h1]
                  exact hbefore h1
                · rw [List.mem_singleton.mp h1, indexOf_append_left hpord,
                    hidx_v]
                  exact List.indexOf_lt_length.mpr hpord
              · have hpv : p = v := by
                  have := hp.symm.trans hb.2.2.1
                  simpa using this
                subst hpv
                refine ⟨hb.2.1, List.mem_append.mpr (Or.inr (by simp)), ?_⟩
                intro hxord'
                exfalso
                have hx0 : x ∈ enQ := Finset.mem_of_mem_erase hb.1
                have hxv : x ≠ v := (Finset.mem_erase.mp hb.1).1
                have hxnord : x ∉ ord := (hI.part x hxN).mp hx0
                rcases List.mem_append.mp hxord' with h1 | h1
                · exact hxnord h1
                · exact hxv (List.mem_singleton.mp h1)
            · intro p hp y hy hadj
              rcases List.mem_append.mp hp with h1 | h1
              · exact lt_of_le_of_lt (ra y)
                  (hI.crossing p h1 y (Finset.mem_of_mem_erase hy) hadj)
              · rw [List.mem_singleton.mp h1] at hadj
                exact rg y ((mem_neighborsU G v y).mpr hadj) hy
            · intro x hx hroot y hy hyx hreach
              rcases List.mem_append.mp hx with hxo | hxo
              · have hroot' : dlookup padre x = some none := by
                  rcases rb x with ⟨hb1, _⟩ | hb
                  · rw [← hb1]
                    exact hroot
                  · rw [hb.2.2.1] at hroot
                    simp at hroot
                rcases List.mem_append.mp hy with hyo | hyo
                · rw [indexOf_append_left hxo, indexOf_append_left hyo]
                  exact hI.root_first x hxo hroot' y hyo hyx hreach
                · rw [indexOf_append_left hxo, List.mem_singleton.mp hyo,
                    hidx_v]
                  exact List.indexOf_lt_length.mpr hxo
              · rw [List.mem_singleton.mp hxo] at hroot hreach hyx
                exfalso
                have hroot' : dlookup padre v = some none := by
                  rcases rb v with ⟨hb1, _⟩ | hb
                  · rw [← hb1]
                    exact hroot
                  · exact absurd (Finset.mem_of_mem_erase hb.1 : v ∈ enQ)
                      (fun _ => (Finset.mem_erase.mp hb.1).1 rfl)
                have hcv : coste v = INFTY := (hI.pnone_iff v hvN).mp hroot'
                have hm1 : m.1 = INFTY := by
                  have h1 := hI.qcost_le m hmQ
                  have h2 := hI.qcost_bound m hmQ
                  rw [← hv, hcv] at h1
                  exact le_antisymm h2 h1
                have hallE : ∀ y' ∈ enQ, coste y' = INFTY := by
                  intro y' hy'
                  obtain ⟨c, i, hci, hcc⟩ := hI.has_entry y' hy'
                  have h1 : m.1 ≤ c := popMin_fst_le q0 qrest (c, i, y') hci
                  have h2 : c ≤ INFTY := hI.qcost_bound (c, i, y') hci
                  have h3 : coste y' ≤ INFTY :=
                    hI.cost_bound y' (hI.enq_sub y' hy')
                  rw [hm1] at h1
                  rw [hcc] at h1
                  exact le_antisymm h3 h1
                have hcomp : ∀ z, Reaches (pairsOf G) v z → z ∈ enQ := by
                  intro z hz
                  induction hz with
                  | refl => exact hvm
                  | @tail b c hab hbc ihz =>
                    have hcN : c ∈ G.nodes := by
                      rcases hbc with hm' | hm'
                      · obtain ⟨e, he, hpe⟩ := List.mem_map.mp hm'
                        have h2 : e.2.1 = c := by
                          have := congrArg Prod.snd hpe
                          simpa using this
                        exact h2 ▸ (hend e he).2
                      · obtain ⟨e, he, hpe⟩ := List.mem_map.mp hm'
                        have h2 : e.1 = c := by
                          have := congrArg Prod.fst hpe
                          simpa using this
                        exact h2 ▸ (hend e he).1
                    by_cases hcord : c ∈ ord
                    · exfalso
                      have hcr := hI.crossing c hcord b ihz (adjP_symm _ hbc)
                      rw [hallE b ihz] at hcr
                      exact lt_irrefl _ hcr
                    · exact (hI.part c hcN).mpr hcord
                have hyenQ : y ∈ enQ := hcomp y hreach
                have hyord : y ∉ ord :=
                  (hI.part y (hI.enq_sub y hyenQ)).mp hyenQ
                rcases List.mem_append.mp hy with h1 | h1
                · exact hyord h1
                · exact hyx (List.mem_singleton.mp h1)
          have hfuel' : (enQ.erase v).card * (2 * G.edges.length + 1) +
              r.2.2.1.length ≤ f := by
            have hcard : (enQ.erase v).card + 1 = enQ.card :=
              Finset.card_erase_add_one hvm
            have hmul : (enQ.erase v).card * (2 * G.edges.length + 1) +
                (2 * G.edges.length + 1) = enQ.card * (2 * G.edges.length + 1) := by
              rw [← hcard]
              ring
            have hQlen : r.2.2.1.length ≤
                qrest.length + 2 * G.edges.length := by
              have h1 := rh
              have h2 := neighborsU_length_le G v
              omega
            simp only [List.length_cons] at hfuel
            omega
          rw [hstep]
          exact ihf f (Nat.lt_succ_self f) r.2.2.1 (enQ.erase v) r.1 r.2.1
            r.2.2.2 (ord ++ [v]) hI' hfuel'
        · -- stale entry: skip
          have hstep : primLoop G w (f + 1) (q0 :: qrest) enQ coste padre cnt =
              primLoop G w f R enQ coste padre cnt := by
            show (if v ∈ enQ then _ else _) = _
            rw [if_neg hvm]
          have hI' : PInv G R enQ coste padre ord := by
            refine ⟨hI.keys, hI.enq_sub, hI.ord_nodup, hI.ord_sub, hI.part,
              ?_, ?_, ?_, hI.cost_bound, ?_, hI.pnone_iff, hI.pprops,
              hI.crossing, hI.root_first⟩
            · exact fun e he => hI.qnodes e (hmem_of_R e he)
            · exact fun e he => hI.qcost_le e (hmem_of_R e he)
            · exact fun e he => hI.qcost_bound e (hmem_of_R e he)
            · intro x hx
              obtain ⟨c, i, hci, hcc⟩ := hI.has_entry x hx
              have hxv : x ≠ v := fun he => hvm (he ▸ hx)
              exact ⟨c, i, hRentry c i x hci hxv, hcc⟩
          have hfuel' : enQ.card * (2 * G.edges.length + 1) + R.length ≤ f := by
            simp only [List.length_cons] at hfuel
            omega
          rw [hstep]
          exact ihf f (Nat.lt_succ_self f) R enQ coste padre cnt ord hI' hfuel'

/-- `prim`'s start state satisfies the invariant and the wrapper's fuel is
enough, so `prim` returns a parent dict satisfying the final invariant. -/
theorem prim_PInv (G : WGraph) (w : ℕ → ℕ → ℚ)
    (hN : G.nodes.Nodup)
    (hend : ∀ e ∈ G.edges, e.1 ∈ G.nodes ∧ e.2.1 ∈ G.nodes)
    (hw : ∀ e ∈ G.edges, w e.1 e.2.1 < INFTY ∧ w e.2.1 e.1 < INFTY) :
    ∃ (costeF : ℕ → ℚ) (padreF : List (ℕ × Option ℕ)) (ordF : List ℕ),
      prim G w = some padreF ∧ PInv G [] ∅ costeF padreF ordF := by
  have hinit : PInv G (G.nodes.enum.map (fun p => (INFTY, p.1, p.2)))
      G.nodes.toFinset (fun _ => INFTY) (dinit (none : Option ℕ) G.nodes)
      [] := by
    refine ⟨dkeys_dinit none G.nodes hN, ?_, List.nodup_nil, ?_, ?_, ?_, ?_,
      ?_, ?_, ?_, ?_, ?_, ?_, ?_⟩
    · exact fun x hx => List.mem_toFinset.mp hx
    · intro x hx
      simp at hx
    · intro x hxN
      simp [List.mem_toFinset, hxN]
    · intro e he
      obtain ⟨p, hp, hpe⟩ := List.mem_map.mp he
      have hp' : p ∈ List.enumFrom 0 G.nodes := hp
      have h3 : e.2.2 = p.2 := by rw [← hpe]
      rw [h3]
      exact mem_enumFrom_snd hp'
    · intro e he
      obtain ⟨p, hp, hpe⟩ := List.mem_map.mp he
      have h1 : e.1 = INFTY := by rw [← hpe]
      rw [h1]
    · intro e he
      obtain ⟨p, hp, hpe⟩ := List.mem_map.mp he
      have h1 : e.1 = INFTY := by rw [← hpe]
      rw [h1]
    · intro x _
      exact le_refl _
    · intro x hx
      obtain ⟨i, hi⟩ := exists_mem_enumFrom (List.mem_toFinset.mp hx) 0
      exact ⟨INFTY, i, List.mem_map.mpr ⟨(i, x), hi, rfl⟩, rfl⟩
    · intro x hxN
      rw [dlookup_dinit, if_pos hxN]
      simp
    · intro x hxN p hp
      rw [dlookup_dinit, if_pos hxN] at hp
      simp at hp
    · intro p hp
      simp at hp
    · intro x hx
      simp at hx
  have hfuel : G.nodes.toFinset.card * (2 * G.edges.length + 1) +
      (G.nodes.enum.map (fun p => (INFTY, p.1, p.2))).length ≤ primFuel G := by
    have hcard : G.nodes.toFinset.card ≤ G.nodes.length :=
      G.nodes.toFinset_card_le
    have hlen : (G.nodes.enum.map (fun p => (INFTY, p.1, p.2))).length =
        G.nodes.length := by
      simp [List.enum_length]
    rw [hlen]
    unfold primFuel
    exact Nat.add_le_add_right (Nat.mul_le_mul_right _ hcard) _
  obtain ⟨cF, pF, oF, hrun, hfin⟩ :=
    primLoop_spec G w hend hw (primFuel G)
      (G.nodes.enum.map (fun p => (INFTY, p.1, p.2))) G.nodes.toFinset
      (fun _ => INFTY) (dinit (none : Option ℕ) G.nodes) G.nodes.length []
      hinit hfuel
  exact ⟨cF, pF, oF, hrun, hfin⟩

/-- C6 (amended): on a graph with duplicate-free node list, edge endpoints
among the nodes and finite edge weights in both directions, `prim` returns
without error a parent dict keyed by exactly the nodes in which every
non-`None` parent is a graph neighbour of its child, following parents from
any node reaches a root (`None` entry) of its own connected component in
fewer than `|V|` steps, and each connected component has exactly one root —
a spanning forest.  (Unamended claim refuted by
`prim_foreign_component_gets_parents`: nodes of components not containing
the first-popped root do NOT keep parent `None`, and with asymmetric weight
functions the forest need not be minimum.) -/
theorem prim_spanning_forest (G : WGraph) (w : ℕ → ℕ → ℚ)
    (hN : G.nodes.Nodup)
    (hend : ∀ e ∈ G.edges, e.1 ∈ G.nodes ∧ e.2.1 ∈ G.nodes)
    (hw : ∀ e ∈ G.edges, w e.1 e.2.1 < INFTY ∧ w e.2.1 e.1 < INFTY) :
    ∃ padre, prim G w = some padre ∧
      dkeys padre = G.nodes ∧
      (∀ x ∈ G.nodes, ∀ p : ℕ, dlookup padre x = some (some p) →
        adjP (pairsOf G) p x) ∧
      (∀ x ∈ G.nodes, ∃ k r, k < G.nodes.length ∧
        padreIter padre k x = some r ∧ r ∈ G.nodes ∧
        dlookup padre r = some none ∧ Reaches (pairsOf G) x r) ∧
      (∀ x ∈ G.nodes, ∃! r, r ∈ G.nodes ∧ Reaches (pairsOf G) x r ∧
        dlookup padre r = some none) := by
  obtain ⟨cF, pF, oF, hrun, hI⟩ := prim_PInv G w hN hend hw
  have hall : ∀ x ∈ G.nodes, x ∈ oF := by
    intro x hx
    by_contra hno
    exact absurd ((hI.part x hx).mpr hno) (Finset.not_mem_empty x)
  have hlenord : oF.length ≤ G.nodes.length := by
    have h1 : oF.toFinset.card = oF.length :=
      List.toFinset_card_of_nodup hI.ord_nodup
    have h2 : oF.toFinset ⊆ G.nodes.toFinset := by
      intro y hy
      exact List.mem_toFinset.mpr (hI.ord_sub y (List.mem_toFinset.mp hy))
    have h3 := Finset.card_le_card h2
    have h4 := G.nodes.toFinset_card_le
    omega
  have main : ∀ n, ∀ x ∈ G.nodes, oF.indexOf x ≤ n →
      ∃ k, k ≤ oF.indexOf x ∧ ∃ r, r ∈ G.nodes ∧
        padreIter pF k x = some r ∧ dlookup pF r = some none ∧
        Reaches (pairsOf G) x r := by
    intro n
    induction n with
    | zero =>
      intro x hx hix
      cases hl : dlookup pF x with
      | none =>
        exfalso
        have hmem : x ∈ dkeys pF := hI.keys ▸ hx
        rw [← dlookup_mem_dkeys, hl] at hmem
        simp at hmem
      | some o =>
        cases o with
        | none => exact ⟨0, Nat.zero_le _, x, hx, rfl, hl, reaches_refl _ x⟩
        | some p =>
          exfalso
          obtain ⟨hadj, hpord, hbef⟩ := hI.pprops x hx p hl
          have h1 := hbef (hall x hx)
          omega
    | succ n ihn =>
      intro x hx hix
      cases hl : dlookup pF x with
      | none =>
        exfalso
        have hmem : x ∈ dkeys pF := hI.keys ▸ hx
        rw [← dlookup_mem_dkeys, hl] at hmem
        simp at hmem
      | some o =>
        cases o with
        | none => exact ⟨0, Nat.zero_le _, x, hx, rfl, hl, reaches_refl _ x⟩
        | some p =>
          obtain ⟨hadj, hpord, hbef⟩ := hI.pprops x hx p hl
          have hplt : oF.indexOf p < oF.indexOf x := hbef (hall x hx)
          have hpN : p ∈ G.nodes := hI.ord_sub p hpord
          obtain ⟨k, hk, r, hrN, hiter, hroot, hreach⟩ :=
            ihn p hpN (by omega)
          refine ⟨k + 1, by omega, r, hrN, ?_, hroot, ?_⟩
          · show padreIter pF (k + 1) x = some r
            simp only [padreIter, hl]
            exact hiter
          · exact reaches_trans _
              (Relation.ReflTransGen.single (adjP_symm _ hadj)) hreach
  refine ⟨pF, hrun, hI.keys, ?_, ?_, ?_⟩
  · intro x hx p hp
    exact (hI.pprops x hx p hp).1
  · intro x hx
    obtain ⟨k, hk, r, hrN, hiter, hroot, hreach⟩ :=
      main oF.length x hx (le_of_lt (List.indexOf_lt_length.mpr (hall x hx)))
    refine ⟨k, r, ?_, hiter, hrN, hroot, hreach⟩
    have h5 := List.indexOf_lt_length.mpr (hall x hx)
    omega
  · intro x hx
    obtain ⟨k, hk, r, hrN, hiter, hroot, hreach⟩ :=
      main oF.length x hx (le_of_lt (List.indexOf_lt_length.mpr (hall x hx)))
    refine ⟨r, ⟨hrN, hreach, hroot⟩, ?_⟩
    rintro r' ⟨hr'N, hreach', hroot'⟩
    by_contra hne
    have hrord : r ∈ oF := hall r hrN
    have hr'ord : r' ∈ oF := hall r' hr'N
    have h1 := hI.root_first r hrord hroot r' hr'ord hne
      (reaches_trans _ (reaches_symm _ hreach) hreach')
    have h2 := hI.root_first r' hr'ord hroot' r hrord
      (fun he => hne he.symm)
      (reaches_trans _ (reaches_symm _ hreach') hreach)
    omega

/-- A 4-node graph with two connected components {0, 1} and {2, 3}. -/
def Gp4 : WGraph :=
  { nodes := [0, 1, 2, 3],
    coordX := fun _ => 0,
    coordY := fun _ => 0,
    edges := [(0, 1, ⟨some 1, none, none, none⟩),
              (2, 3, ⟨some 1, none, none, none⟩)] }

/-- C6 witness: the amended theorem at the concrete 2-component graph
`Gp4` and constant weight 1. -/
theorem prim_spanning_forest_witness :
    ∃ padre, prim Gp4 wOne = some padre ∧
      dkeys padre = Gp4.nodes ∧
      (∀ x ∈ Gp4.nodes, ∀ p : ℕ, dlookup padre x = some (some p) →
        adjP (pairsOf Gp4) p x) ∧
      (∀ x ∈ Gp4.nodes, ∃ k r, k < Gp4.nodes.length ∧
        padreIter padre k x = some r ∧ r ∈ Gp4.nodes ∧
        dlookup padre r = some none ∧ Reaches (pairsOf Gp4) x r) ∧
      (∀ x ∈ Gp4.nodes, ∃! r, r ∈ Gp4.nodes ∧ Reaches (pairsOf Gp4) x r ∧
        dlookup padre r = some none) :=
  prim_spanning_forest Gp4 wOne (by decide) (by decide)
    (by with_unfolding_all decide)

/-- C6 counterexample: on `Gp4`, node 3 lies in a component that does not
contain the first-popped root 0 (3 is unreachable from 0), yet its parent
in `prim`'s result is `2`, not `None` — the second component gets its own
spanning tree, its nodes do not all keep parent `None` as the claim says. -/
theorem prim_foreign_component_gets_parents :
    prim Gp4 wOne =
      some [(0, none), (1, some 0), (2, none), (3, some 2)] ∧
    ¬ Reaches (pairsOf Gp4) 0 3 ∧
    dlookup [(0, (none : Option ℕ)), (1, some 0), (2, none), (3, some 2)]
      3 = some (some 2) := by
  refine ⟨?_, ?_, by with_unfolding_all decide⟩
  · norm_num [prim, primFuel, primLoop, primRelax, popMin, tupLt, neighborsU,
      dinit, dset, INFTY, Gp4, wOne, List.enum, List.enumFrom]
  · intro hre
    have hp := unionFold_partitions (pairsOf Gp4) (initC Gp4.nodes)
      Gp4.nodes.toFinset [] (partitions_initC Gp4.nodes)
      (by with_unfolding_all decide)
    rw [List.nil_append] at hp
    have h3 := (hp 0 (by with_unfolding_all decide) 3).mpr
      ⟨by with_unfolding_all decide, hre⟩
    exact absurd h3 (by with_unfolding_all decide)

end UrbanNav
